import Mathlib

/-!
Verification of the rv runtime-version manager core: installation discovery
cache, remote catalog cache, merge/selection, and request resolution.
The Rust sources embedded here are `crates/rv/src/commands/ruby/list.rs`,
`crates/rv/src/config/ruby_cache.rs` and `crates/rv/src/config.rs`. Version
parsing/ordering and the `Ruby` data type live in the external `rv_ruby`
crate, which the specification treats as an opaque ordered-version library;
those parts are modelled from the specification and marked as such.
-/

/-! ## A small lawful-comparator framework

All orderings in the embedding are expressed as executable
`Ordering`-valued comparators so that concrete instances reduce under
`decide`/`rfl`. -/

/-- Three-way comparison on naturals. -/
def cmpNat (a b : Nat) : Ordering :=
  if a < b then .lt else if b < a then .gt else .eq

/-- Three-way comparison on characters, by code point. -/
def cmpChar (a b : Char) : Ordering := cmpNat a.toNat b.toNat

/-- Lexicographic comparison of lists given an element comparator. -/
def cmpListBy (c : α → α → Ordering) : List α → List α → Ordering
  | [], [] => .eq
  | [], _ :: _ => .lt
  | _ :: _, [] => .gt
  | a :: as, b :: bs =>
    match c a b with
    | .eq => cmpListBy c as bs
    | o => o

/-- Byte-wise (code-point-wise) lexicographic comparison of strings; this is
the order `BTreeMap<String, _>` iterates keys in. -/
def cmpStr (a b : String) : Ordering := cmpListBy cmpChar a.data b.data

/-- Comparison on `Option` with `none` least, the order of Rust's derived
`Ord` on `Option`. -/
def cmpOptionBy (c : α → α → Ordering) : Option α → Option α → Ordering
  | none, none => .eq
  | none, some _ => .lt
  | some _, none => .gt
  | some a, some b => c a b

/-- Lexicographic comparison on pairs, the order of Rust's derived `Ord` on
structs read field by field. -/
def cmpProd (ca : α → α → Ordering) (cb : β → β → Ordering) (x y : α × β) : Ordering :=
  match ca x.1 y.1 with
  | .eq => cb x.2 y.2
  | o => o

/-- A comparator is lawful when `.eq` characterises equality, `.lt` and
`.gt` are opposite orientations, and `.lt` is transitive. -/
structure IsLawfulCmp (c : α → α → Ordering) : Prop where
  eq_iff : ∀ a b, c a b = .eq ↔ a = b
  lt_iff_gt : ∀ a b, c a b = .lt ↔ c b a = .gt
  lt_trans : ∀ a b d, c a b = .lt → c b d = .lt → c a d = .lt

theorem IsLawfulCmp.refl {c : α → α → Ordering} (h : IsLawfulCmp c) (a : α) :
    c a a = .eq := (h.eq_iff a a).mpr rfl

theorem IsLawfulCmp.lt_irrefl {c : α → α → Ordering} (h : IsLawfulCmp c) (a : α) :
    c a a ≠ .lt := by
  have := h.refl a
  simp [this]

theorem IsLawfulCmp.lt_ne {c : α → α → Ordering} (h : IsLawfulCmp c) {a b : α}
    (hab : c a b = .lt) : a ≠ b := by
  rintro rfl
  exact h.lt_irrefl a hab

theorem IsLawfulCmp.lt_asymm {c : α → α → Ordering} (h : IsLawfulCmp c) {a b : α}
    (hab : c a b = .lt) : c b a ≠ .lt := by
  intro hba
  have := h.lt_trans a b a hab hba
  exact h.lt_irrefl a this

theorem IsLawfulCmp.eq_of_not_lt_not_gt {c : α → α → Ordering} (h : IsLawfulCmp c)
    {a b : α} (h1 : c a b ≠ .lt) (h2 : c a b ≠ .gt) : a = b := by
  cases hc : c a b with
  | lt => exact absurd hc h1
  | gt => exact absurd hc h2
  | eq => exact (h.eq_iff a b).mp hc

theorem IsLawfulCmp.gt_iff_lt {c : α → α → Ordering} (h : IsLawfulCmp c) (a b : α) :
    c a b = .gt ↔ c b a = .lt := (h.lt_iff_gt b a).symm

/-- Transitivity of the reflexive order `c a b ≠ .lt` ("a ≥ b"). -/
theorem IsLawfulCmp.ge_trans {c : α → α → Ordering} (h : IsLawfulCmp c) {a b d : α}
    (h1 : c a b ≠ .lt) (h2 : c b d ≠ .lt) : c a d ≠ .lt := by
  intro had
  cases hab : c a b with
  | lt => exact h1 hab
  | eq =>
    have : a = b := (h.eq_iff a b).mp hab
    subst this
    exact h2 had
  | gt =>
    have hba : c b a = .lt := (h.gt_iff_lt a b).mp hab
    have : c b d = .lt := h.lt_trans b a d hba had
    exact h2 this

theorem cmpNat_lawful : IsLawfulCmp cmpNat := by
  constructor
  · intro a b
    unfold cmpNat
    split <;> rename_i h1
    · simp; omega
    · split <;> rename_i h2
      · simp; omega
      · simp; omega
  · intro a b
    unfold cmpNat
    split <;> rename_i h1 <;> split <;> rename_i h2 <;> simp_all <;> omega
  · intro a b d h1 h2
    unfold cmpNat at *
    split at h1 <;> rename_i ha <;> [skip; (split at h1 <;> simp_all)]
    split at h2 <;> rename_i hb <;> [skip; (split at h2 <;> simp_all)]
    have : a < d := Nat.lt_trans ha hb
    simp [this]

theorem cmpLawful_comap {c : β → β → Ordering} (h : IsLawfulCmp c) (f : α → β)
    (hf : Function.Injective f) : IsLawfulCmp (fun a b => c (f a) (f b)) := by
  constructor
  · intro a b
    constructor
    · intro hc
      exact hf ((h.eq_iff (f a) (f b)).mp hc)
    · rintro rfl
      exact h.refl (f a)
  · intro a b
    exact h.lt_iff_gt (f a) (f b)
  · intro a b d h1 h2
    exact h.lt_trans (f a) (f b) (f d) h1 h2

theorem cmpChar_lawful : IsLawfulCmp cmpChar :=
  cmpLawful_comap cmpNat_lawful Char.toNat
    (fun _ _ hab => Char.eq_of_val_eq (UInt32.ext hab))

theorem cmpListBy_lawful {c : α → α → Ordering} (h : IsLawfulCmp c) :
    IsLawfulCmp (cmpListBy c) := by
  constructor
  · intro as
    induction as with
    | nil => intro bs; cases bs <;> simp [cmpListBy]
    | cons a as ih =>
      intro bs
      cases bs with
      | nil => simp [cmpListBy]
      | cons b bs =>
        simp only [cmpListBy]
        cases hc : c a b with
        | eq =>
          have hab : a = b := (h.eq_iff a b).mp hc
          subst hab
          rw [ih bs]
          simp
        | lt =>
          simp only []
          constructor
          · intro hcon; cases hcon
          · intro he
            have : a = b := by
              have := List.cons.injEq a as b bs
              rw [this] at he
              exact he.1
            subst this
            rw [h.refl a] at hc
            cases hc
        | gt =>
          simp only []
          constructor
          · intro hcon; cases hcon
          · intro he
            have : a = b := by
              have := List.cons.injEq a as b bs
              rw [this] at he
              exact he.1
            subst this
            rw [h.refl a] at hc
            cases hc
  · intro as
    induction as with
    | nil => intro bs; cases bs <;> simp [cmpListBy]
    | cons a as ih =>
      intro bs
      cases bs with
      | nil => simp [cmpListBy]
      | cons b bs =>
        simp only [cmpListBy]
        cases hc : c a b with
        | eq =>
          have hab : a = b := (h.eq_iff a b).mp hc
          subst hab
          rw [h.refl a]
          exact ih bs
        | lt =>
          have : c b a = .gt := (h.lt_iff_gt a b).mp hc
          rw [this]
          simp
        | gt =>
          have : c b a = .lt := (h.gt_iff_lt a b).mp hc
          rw [this]
          simp
  · intro as
    induction as with
    | nil =>
      intro bs ds h1 h2
      cases bs with
      | nil => exact h2
      | cons b bs =>
        cases ds with
        | nil => simp [cmpListBy] at h2
        | cons d ds => simp [cmpListBy]
    | cons a as ih =>
      intro bs ds h1 h2
      cases bs with
      | nil => simp [cmpListBy] at h1
      | cons b bs =>
        cases ds with
        | nil => simp [cmpListBy] at h2
        | cons d ds =>
          simp only [cmpListBy] at h1 h2 ⊢
          cases hab : c a b with
          | lt =>
            cases hbd : c b d with
            | lt => rw [h.lt_trans a b d hab hbd]
            | eq =>
              have hbd2 : b = d := (h.eq_iff b d).mp hbd
              subst hbd2
              rw [hab]
            | gt => simp only [hbd] at h2; cases h2
          | eq =>
            have hab2 : a = b := (h.eq_iff a b).mp hab
            subst hab2
            simp only [hab] at h1
            cases hbd : c a d with
            | lt => rfl
            | eq =>
              simp only [hbd] at h2
              exact ih bs ds h1 h2
            | gt => simp only [hbd] at h2; cases h2
          | gt => simp only [hab] at h1; cases h1

theorem cmpStr_lawful : IsLawfulCmp cmpStr := by
  have hinj : Function.Injective String.data := fun _ _ hab => String.ext hab
  exact cmpLawful_comap (cmpListBy_lawful cmpChar_lawful) String.data hinj

theorem cmpOptionBy_lawful {c : α → α → Ordering} (h : IsLawfulCmp c) :
    IsLawfulCmp (cmpOptionBy c) := by
  constructor
  · intro a b
    cases a <;> cases b <;> simp [cmpOptionBy, h.eq_iff]
  · intro a b
    cases a <;> cases b <;> simp [cmpOptionBy, h.lt_iff_gt]
  · intro a b d h1 h2
    cases a <;> cases b <;> cases d <;> simp_all [cmpOptionBy]
    exact h.lt_trans _ _ _ h1 h2

theorem cmpProd_lawful {ca : α → α → Ordering} {cb : β → β → Ordering}
    (ha : IsLawfulCmp ca) (hb : IsLawfulCmp cb) : IsLawfulCmp (cmpProd ca cb) := by
  constructor
  · intro x y
    simp only [cmpProd]
    cases hc : ca x.1 y.1 with
    | eq =>
      have h1 : x.1 = y.1 := (ha.eq_iff _ _).mp hc
      rw [hb.eq_iff]
      constructor
      · intro h2
        exact Prod.ext h1 h2
      · rintro rfl; rfl
    | lt =>
      simp only []
      constructor
      · intro hcon; cases hcon
      · rintro rfl
        rw [ha.refl] at hc; cases hc
    | gt =>
      simp only []
      constructor
      · intro hcon; cases hcon
      · rintro rfl
        rw [ha.refl] at hc; cases hc
  · intro x y
    simp only [cmpProd]
    cases hc : ca x.1 y.1 with
    | eq =>
      have h1 : x.1 = y.1 := (ha.eq_iff _ _).mp hc
      rw [h1, ha.refl]
      exact hb.lt_iff_gt _ _
    | lt =>
      rw [(ha.lt_iff_gt _ _).mp hc]
      simp
    | gt =>
      rw [(ha.gt_iff_lt _ _).mp hc]
      simp
  · intro x y z h1 h2
    simp only [cmpProd] at *
    cases hxy : ca x.1 y.1 with
    | lt =>
      cases hyz : ca y.1 z.1 with
      | lt => rw [ha.lt_trans _ _ _ hxy hyz]
      | eq =>
        have : y.1 = z.1 := (ha.eq_iff _ _).mp hyz
        rw [← this, hxy]
      | gt => rw [hyz] at h2; cases h2
    | eq =>
      have : x.1 = y.1 := (ha.eq_iff _ _).mp hxy
      rw [hxy] at h1
      cases hyz : ca y.1 z.1 with
      | lt => rw [this, hyz]
      | eq =>
        rw [hyz] at h2
        rw [this, hyz]
        exact hb.lt_trans _ _ _ h1 h2
      | gt => rw [hyz] at h2; cases h2
    | gt => rw [hxy] at h1; cases h1

/-! ## Data model

The `Ruby`, `RubyRequest` (version) and `RubyEngine` types live in the
external `rv_ruby` crate, which the specification declares out of scope
("an opaque library providing parse, a total order, and satisfied_by").
They are modelled here from the specification and from the shapes the
in-scope code relies on. -/

/-- Modelled from the spec: the runtime engine discriminator of the external
VersionOrdering library ("engine discrimination (e.g. two different
implementations of the same language)"). -/
inductive RubyEngine
  | ruby
  | mruby
  | jruby
deriving DecidableEq

/-- Index giving the (modelled) declaration order of the engine enum; used
for engine-partitioned comparisons. -/
def RubyEngine.idx : RubyEngine → Nat
  | .ruby => 0
  | .mruby => 1
  | .jruby => 2

/-- Rendered engine name. -/
def RubyEngine.name : RubyEngine → String
  | .ruby => "ruby"
  | .mruby => "mruby"
  | .jruby => "jruby"

theorem RubyEngine.idx_injective : Function.Injective RubyEngine.idx := by
  intro a b h
  cases a <;> cases b <;> first | rfl | (simp [RubyEngine.idx] at h)

/-- Modelled from the spec: a parsed, structured version value of the
external VersionOrdering library ("parse(str) -> Version"); field shape as
used by the in-scope code (`engine`, `major`, `minor`, `patch`, `tiny`,
`prerelease`), optional parts meaning "unspecified/wildcard". -/
structure RubyRequest where
  engine : RubyEngine
  major : Option Nat
  minor : Option Nat
  patch : Option Nat
  tiny : Option Nat
  prerelease : Option String
deriving DecidableEq

/-- Field-tuple encoding of a version, in declaration order. -/
def RubyRequest.enc (v : RubyRequest) :
    Nat × (Option Nat × (Option Nat × (Option Nat × (Option Nat × Option String)))) :=
  (v.engine.idx, (v.major, (v.minor, (v.patch, (v.tiny, v.prerelease)))))

/-- Modelled from the spec: the total order over versions of the external
VersionOrdering library — engine-discriminating, then numeric parts, then
prerelease ("prerelease ordering"); field-lexicographic, `none` least. -/
def cmpVersion (v w : RubyRequest) : Ordering :=
  cmpProd cmpNat
    (cmpProd (cmpOptionBy cmpNat)
      (cmpProd (cmpOptionBy cmpNat)
        (cmpProd (cmpOptionBy cmpNat)
          (cmpProd (cmpOptionBy cmpNat) (cmpOptionBy cmpStr)))))
    v.enc w.enc

theorem rubyRequestEnc_injective : Function.Injective RubyRequest.enc := by
  intro v w h
  cases v
  cases w
  simp only [RubyRequest.enc, Prod.mk.injEq] at h
  obtain ⟨h1, h2, h3, h4, h5, h6⟩ := h
  have := RubyEngine.idx_injective h1
  simp_all

theorem cmpVersion_lawful : IsLawfulCmp cmpVersion :=
  cmpLawful_comap
    (cmpProd_lawful cmpNat_lawful
      (cmpProd_lawful (cmpOptionBy_lawful cmpNat_lawful)
        (cmpProd_lawful (cmpOptionBy_lawful cmpNat_lawful)
          (cmpProd_lawful (cmpOptionBy_lawful cmpNat_lawful)
            (cmpProd_lawful (cmpOptionBy_lawful cmpNat_lawful)
              (cmpOptionBy_lawful cmpStr_lawful))))))
    RubyRequest.enc rubyRequestEnc_injective

/-- Modelled from the spec: an `Installation` ("a discovered runtime: key,
version, installPath, optional symlinkTarget, os, arch, optional
gemRoot-equivalent auxiliary root"), the `Ruby` struct of the `rv_ruby`
crate as constructed and consumed by the in-scope code. -/
structure Ruby where
  key : String
  version : RubyRequest
  path : String
  symlink : Option String
  arch : String
  os : String
  gem_root : Option String
deriving DecidableEq

/-- Field-tuple encoding of an installation, version first, then path, then
the remaining fields as tie-breaks. -/
def Ruby.enc (r : Ruby) :
    RubyRequest × (String × (String × (Option String × (String × (String × Option String))))) :=
  (r.version, (r.path, (r.key, (r.symlink, (r.arch, (r.os, r.gem_root))))))

/-- Modelled from the spec: the `Installation` total order used by the scan
("at minimum partitioned by engine, then by version ascending, then by
path"), completed with the remaining fields as a stable documented
tie-break so the order is antisymmetric. -/
def cmpRuby (a b : Ruby) : Ordering :=
  cmpProd cmpVersion
    (cmpProd cmpStr
      (cmpProd cmpStr
        (cmpProd (cmpOptionBy cmpStr)
          (cmpProd cmpStr (cmpProd cmpStr (cmpOptionBy cmpStr))))))
    a.enc b.enc

theorem rubyEnc_injective : Function.Injective Ruby.enc := by
  intro a b h
  cases a
  cases b
  simp only [Ruby.enc, Prod.mk.injEq] at h
  simp_all

theorem cmpRuby_lawful : IsLawfulCmp cmpRuby :=
  cmpLawful_comap
    (cmpProd_lawful cmpVersion_lawful
      (cmpProd_lawful cmpStr_lawful
        (cmpProd_lawful cmpStr_lawful
          (cmpProd_lawful (cmpOptionBy_lawful cmpStr_lawful)
            (cmpProd_lawful cmpStr_lawful
              (cmpProd_lawful cmpStr_lawful (cmpOptionBy_lawful cmpStr_lawful)))))))
    Ruby.enc rubyEnc_injective

/-! ## Rendering and parsing of version strings

Modelled from the spec's opaque `parse(str) -> Version` and the display
rendering "version + engine rendering without platform suffix". -/

/-- Decimal digit test on characters. -/
def isDigitChar (c : Char) : Bool := 48 ≤ c.toNat && c.toNat ≤ 57

/-- ASCII letter test on characters. -/
def isAlphaChar (c : Char) : Bool :=
  (65 ≤ c.toNat && c.toNat ≤ 90) || (97 ≤ c.toNat && c.toNat ≤ 122)

/-- The decimal digit character for a digit value. -/
def digitChar (d : Nat) : Char :=
  if d = 0 then '0' else if d = 1 then '1' else if d = 2 then '2'
  else if d = 3 then '3' else if d = 4 then '4' else if d = 5 then '5'
  else if d = 6 then '6' else if d = 7 then '7' else if d = 8 then '8' else '9'

/-- Decimal digits of a natural number, most significant first
(fuel-recursive; the fuel `n + 1` always suffices). -/
def natToCharsAux : Nat → Nat → List Char
  | 0, _ => []
  | fuel + 1, n =>
    if n < 10 then [digitChar n]
    else natToCharsAux fuel (n / 10) ++ [digitChar (n % 10)]

/-- Decimal rendering of a natural number. -/
def natToStr (n : Nat) : String := String.mk (natToCharsAux (n + 1) n)

/-- Value of a list of decimal digit characters. -/
def digitsToNat (cs : List Char) : Nat :=
  cs.foldl (fun n c => n * 10 + (c.toNat - 48)) 0

/-- Modelled from the spec: the display rendering of a version used as the
merge/grouping key — "a version+engine rendering used as the
deduplication/grouping key between installed and remote entries,
platform-independent" (e.g. `ruby-3.4.1`, `jruby-9.4.13.1`,
`ruby-3.2.0-rc1`). -/
def versionToString (v : RubyRequest) : String :=
  v.engine.name ++
    (match v.major with
      | none => ""
      | some a =>
        "-" ++ natToStr a ++
          (match v.minor with
            | none => ""
            | some b =>
              "." ++ natToStr b ++
                (match v.patch with
                  | none => ""
                  | some p =>
                    "." ++ natToStr p ++
                      (match v.tiny with
                        | none => ""
                        | some t => "." ++ natToStr t)))) ++
    (match v.prerelease with
      | none => ""
      | some pre => "-" ++ pre)

/-- Modelled from the spec: `Ruby#display_name` of the `rv_ruby` crate, the
"display name" grouping key ("version + engine rendering without platform
suffix"). -/
def Ruby.display_name (r : Ruby) : String := versionToString r.version

/-- Split a character list on a separator character. -/
def splitOnChar (sep : Char) : List Char → List (List Char)
  | [] => [[]]
  | c :: cs =>
    let r := splitOnChar sep cs
    if c = sep then [] :: r
    else
      match r with
      | [] => [[c]]
      | g :: gs => (c :: g) :: gs

/-- Split at the first dash, returning the part before and, when a dash is
present, the part after. -/
def dashSplit : List Char → List Char × Option (List Char)
  | [] => ([], none)
  | c :: cs =>
    if c = '-' then ([], some cs)
    else
      let r := dashSplit cs
      (c :: r.1, r.2)

/-- Parse one nonempty all-digit segment. -/
def parseSegment (cs : List Char) : Option Nat :=
  if !cs.isEmpty && cs.all isDigitChar then some (digitsToNat cs) else none

/-- Split off a leading engine name, defaulting to `ruby`. -/
def engineSplit (cs : List Char) : RubyEngine × List Char :=
  if "jruby-".data.isPrefixOf cs then (.jruby, cs.drop 6)
  else if "mruby-".data.isPrefixOf cs then (.mruby, cs.drop 6)
  else if "ruby-".data.isPrefixOf cs then (.ruby, cs.drop 5)
  else (.ruby, cs)

/-- Modelled from the spec: the external library's `parse(str) -> Version`
for strings such as `ruby-3.4.1`, `jruby-9.4.13.1`, `3.2.0-rc1`: optional
engine prefix, one to four dot-separated numeric parts, optional dashed
prerelease. -/
def parseRubyVersion (s : String) : Option RubyRequest :=
  let es := engineSplit s.data
  let ds := dashSplit es.2
  let pre : Option String := ds.2.map String.mk
  match (splitOnChar '.' ds.1).mapM parseSegment with
  | none => none
  | some ns =>
    match ns with
    | [a] => some ⟨es.1, some a, none, none, none, pre⟩
    | [a, b] => some ⟨es.1, some a, some b, none, none, pre⟩
    | [a, b, p] => some ⟨es.1, some a, some b, some p, none, pre⟩
    | [a, b, p, t] => some ⟨es.1, some a, some b, some p, some t, pre⟩
    | _ => none

example : parseRubyVersion "ruby-3.4.1" =
    some ⟨.ruby, some 3, some 4, some 1, none, none⟩ := by decide
example : parseRubyVersion "jruby-9.4.13.1" =
    some ⟨.jruby, some 9, some 4, some 13, some 1, none⟩ := by decide
example : parseRubyVersion "ruby-3.2.0-rc1" =
    some ⟨.ruby, some 3, some 2, some 0, none, some "rc1"⟩ := by decide
example : versionToString ⟨.ruby, some 3, some 4, some 1, none, none⟩ = "ruby-3.4.1" := by decide
example : versionToString ⟨.ruby, some 3, some 2, some 0, none, some "rc1"⟩ =
    "ruby-3.2.0-rc1" := by decide
example : cmpVersion ⟨.ruby, some 3, some 2, some 0, none, some "preview3"⟩
    ⟨.ruby, some 3, some 2, some 0, none, some "rc1"⟩ = .lt := by decide

/-! ## Embedding of `crates/rv/src/commands/ruby/list.rs` (pure parts) -/

/-- A release asset as published remotely (`rv_ruby::Asset`): the remote
catalog's `{name, browser_download_url}` descriptor. -/
structure Asset where
  name : String
  browser_download_url : String
deriving DecidableEq

/-- The remote release catalog (`rv_ruby::Release`). -/
structure Release where
  name : String
  assets : List Asset
deriving DecidableEq

/-- Output/merge unit of `list.rs`: a ruby plus derived `installed` and
`active` flags (struct `JsonRubyEntry`). -/
structure JsonRubyEntry where
  details : Ruby
  installed : Bool
  active : Bool
deriving DecidableEq

/-- Leftmost occurrence of `max-age=` followed by at least one digit,
returning the greedy digit run — the embedding of the
`max-age=(\d+)` regex search of `PARSE_MAX_AGE_REGEX`. -/
def findMaxAgeDigits : List Char → Option (List Char)
  | [] => none
  | c :: cs =>
    if "max-age=".data.isPrefixOf (c :: cs) then
      let ds := ((c :: cs).drop 8).takeWhile isDigitChar
      if ds.isEmpty then findMaxAgeDigits cs else some ds
    else findMaxAgeDigits cs

/-- `parse_max_age` of `list.rs`: the first `max-age=<digits>` token's value
in seconds, `none` when no token occurs or its digits overflow a `u64`. -/
def parse_max_age (header : String) : Option Nat :=
  (findMaxAgeDigits header.data).bind fun ds =>
    let n := digitsToNat ds
    if n < 2 ^ 64 then some n else none

example : parse_max_age "Cache-Control: max-age=3600, must-revalidate" = some 3600 := by decide
example : parse_max_age "no-cache" = none := by decide

/-- `parse_arch_str` of `list.rs`: OS and architecture decoded from the arch
part of an asset name. -/
def parse_arch_str (s : String) : String × String :=
  if s = "arm64_sonoma" then ("macos", "aarch64")
  else if s = "x86_64_linux" then ("linux", "x86_64")
  else if s = "arm64_linux" then ("linux", "aarch64")
  else ("unknown", "unknown")

/-- `all_suffixes` of `list.rs` (note the third entry lacks the leading dot,
as in the source). -/
def all_suffixes : List String :=
  [".arm64_linux.tar.gz", ".arm64_sonoma.tar.gz", "x86_64_linux.tar.gz", ".ventura.tar.gz"]

/-- Rust's `str::strip_suffix` with `unwrap_or(curr)`: remove the suffix
when present, else keep the string. -/
def stripSuffixChars (suffix s : List Char) : List Char :=
  if suffix.isSuffixOf s then s.take (s.length - suffix.length) else s

/-- The suffix-stripping fold in `ruby_from_asset`. -/
def stripAllSuffixes (s : List Char) : List Char :=
  all_suffixes.foldl (fun cur suf => stripSuffixChars suf.data cur) s

/-- Word-character test for the regex class `[a-zA-Z0-9_]`. -/
def isWordChar (c : Char) : Bool := isDigitChar c || isAlphaChar c || c = '_'

/-- Character test for the regex class `[\d\.]`. -/
def isVerChar (c : Char) : Bool := isDigitChar c || c = '.'

/-- After choosing a version run, the regex continues `\.` then the greedy
nonempty `[a-zA-Z0-9_]+` capture, then `\.tar\.gz`; returns the capture. -/
def archAfterDot (t : List Char) : Option (List Char) :=
  match t with
  | '.' :: r2 =>
    let a := r2.takeWhile isWordChar
    if !a.isEmpty && ".tar.gz".data.isPrefixOf (r2.drop a.length) then some a else none
  | _ => none

/-- Backtracking over the greedy `[\d\.]+` run: try run prefixes of length
`k`, `k-1`, ..., `1`. `r` is the maximal run, `rest` what follows it. -/
def backtrackVer : Nat → List Char → List Char → Option (List Char)
  | 0, _, _ => none
  | k + 1, r, rest =>
    match archAfterDot (r.drop (k + 1) ++ rest) with
    | some a => some a
    | none => backtrackVer k r rest

/-- The embedding of `ARCH_REGEX` (`ruby-[\d\.]+\.(?P<arch>[a-zA-Z0-9_]+)\.tar\.gz`):
leftmost match, greedy subpatterns with backtracking, returning the `arch`
capture. -/
def arch_capture : List Char → Option (List Char)
  | [] => none
  | c :: cs =>
    match
      (if "ruby-".data.isPrefixOf (c :: cs) then
        let t := (c :: cs).drop 5
        let r := t.takeWhile isVerChar
        if r.isEmpty then none else backtrackVer r.length r (t.drop r.length)
      else none) with
    | some a => some a
    | none => arch_capture cs

example : arch_capture "ruby-3.3.0.arm64_linux.tar.gz".data = some "arm64_linux".data := by decide
example : arch_capture "jruby-9.4.13.1.arm64_sonoma.tar.gz".data =
    some "arm64_sonoma".data := by decide
example : arch_capture "whatever.tar.gz".data = none := by decide

/-- `ruby_from_asset` of `list.rs`: strip the known platform suffixes, parse
the remainder as a version, decode the platform from the regex capture, and
build the `Ruby` value (`Err` becomes `none`). -/
def ruby_from_asset (asset : Asset) : Option Ruby :=
  match parseRubyVersion (String.mk (stripAllSuffixes asset.name.data)) with
  | none => none
  | some version =>
    let display_name := versionToString version
    let arch_str : String :=
      match arch_capture asset.name.data with
      | some a => String.mk a
      | none => "unknown"
    let oa := parse_arch_str arch_str
    some
      { key := display_name ++ "-" ++ oa.1 ++ "-" ++ oa.2
        version := version
        path := asset.browser_download_url
        symlink := none
        arch := oa.2
        os := oa.1
        gem_root := none }

example :
    ruby_from_asset
        ⟨"ruby-3.3.0.arm64_linux.tar.gz",
          "https://github.com/spinel-coop/rv-ruby/releases/download/20251006/ruby-3.3.0.arm64_linux.tar.gz"⟩ =
      some
        { key := "ruby-3.3.0-linux-aarch64"
          version := ⟨.ruby, some 3, some 3, some 0, none, none⟩
          path :=
            "https://github.com/spinel-coop/rv-ruby/releases/download/20251006/ruby-3.3.0.arm64_linux.tar.gz"
          symlink := none
          arch := "aarch64"
          os := "linux"
          gem_root := none } := by decide

/-! ## A sorted association-list model of `BTreeMap` -/

/-- Lookup in an association list (the semantics of `BTreeMap::get` /
`contains_key`). -/
def btreeFind [DecidableEq κ] (k : κ) : List (κ × ν) → Option ν
  | [] => none
  | (k2, v) :: rest => if k = k2 then some v else btreeFind k rest

/-- Key-ordered insert-or-replace (the semantics of `BTreeMap::insert`,
keeping keys strictly sorted by the comparator). -/
def btreeInsert (c : κ → κ → Ordering) (k : κ) (v : ν) : List (κ × ν) → List (κ × ν)
  | [] => [(k, v)]
  | (k2, v2) :: rest =>
    match c k k2 with
    | .lt => (k, v) :: (k2, v2) :: rest
    | .eq => (k, v) :: rest
    | .gt => (k2, v2) :: btreeInsert c k v rest

/-- `map.entry(k).or_default().push(x)` for a `BTreeMap<κ, Vec α>`. -/
def btreePush [DecidableEq κ] (c : κ → κ → Ordering) (k : κ) (x : α)
    (m : List (κ × List α)) : List (κ × List α) :=
  match btreeFind k m with
  | some vs => btreeInsert c k (vs ++ [x]) m
  | none => btreeInsert c k [x] m

/-- Group key for catalog deduplication (struct `NonPatchRelease` local to
`latest_patch_version`): engine, major and minor only. -/
structure NonPatchRelease where
  engine : RubyEngine
  major : Option Nat
  minor : Option Nat
deriving DecidableEq

/-- The `From<RubyRequest>` conversion of `NonPatchRelease`. -/
def NonPatchRelease.ofRequest (v : RubyRequest) : NonPatchRelease :=
  ⟨v.engine, v.major, v.minor⟩

/-- Field-tuple encoding of a group key. -/
def NonPatchRelease.enc (k : NonPatchRelease) : Nat × (Option Nat × Option Nat) :=
  (k.engine.idx, (k.major, k.minor))

/-- Derived lexicographic order of `NonPatchRelease` (its `derive Ord`). -/
def cmpNPR (a b : NonPatchRelease) : Ordering :=
  cmpProd cmpNat (cmpProd (cmpOptionBy cmpNat) (cmpOptionBy cmpNat)) a.enc b.enc

theorem nprEnc_injective : Function.Injective NonPatchRelease.enc := by
  intro a b h
  cases a
  cases b
  simp only [NonPatchRelease.enc, Prod.mk.injEq] at h
  obtain ⟨h1, h2, h3⟩ := h
  have := RubyEngine.idx_injective h1
  simp_all

theorem cmpNPR_lawful : IsLawfulCmp cmpNPR :=
  cmpLawful_comap
    (cmpProd_lawful cmpNat_lawful
      (cmpProd_lawful (cmpOptionBy_lawful cmpNat_lawful) (cmpOptionBy_lawful cmpNat_lawful)))
    NonPatchRelease.enc nprEnc_injective

/-- `latest_patch_version` of `list.rs`: deduplicate platform-filtered
catalog rubies by `(engine, major, minor)`, keeping, per group, the entry
whose full version is not exceeded by a later one (skip an incoming ruby
only when the stored one is strictly greater). -/
def latest_patch_version (rubies_for_this_platform : List Ruby) : List Ruby :=
  let available_rubies : List (NonPatchRelease × Ruby) :=
    rubies_for_this_platform.foldl
      (fun m ruby =>
        let key := NonPatchRelease.ofRequest ruby.version
        let skip : Bool :=
          match btreeFind key m with
          | some other => cmpVersion ruby.version other.version == .lt
          | none => false
        if skip then m else btreeInsert cmpNPR key ruby m)
      []
  available_rubies.map Prod.snd

/-- `rubies_to_show` of `list.rs`: group installed rubies by display name in
a `BTreeMap`, filter and deduplicate the catalog for the current platform,
add each deduplicated catalog ruby only when its display name is not
already a key, then flatten in key order into output entries whose
`installed` flag is "path does not start with http" and whose `active` flag
is equality with the active ruby. -/
def rubies_to_show (release : Release) (installed_rubies : List Ruby)
    (active_ruby : Option Ruby) (current_platform : String) : List JsonRubyEntry :=
  let rubies_map : List (String × List Ruby) :=
    installed_rubies.foldl (fun m ruby => btreePush cmpStr ruby.display_name ruby m) []
  let oa := parse_arch_str current_platform
  let rubies_for_this_platform : List Ruby :=
    (release.assets.filterMap ruby_from_asset).filter
      (fun ruby => decide (ruby.os = oa.1) && decide (ruby.arch = oa.2))
  let available_rubies := latest_patch_version rubies_for_this_platform
  let rubies_map2 : List (String × List Ruby) :=
    available_rubies.foldl
      (fun m ruby =>
        if (btreeFind ruby.display_name m).isSome then m
        else btreePush cmpStr ruby.display_name ruby m)
      rubies_map
  ((rubies_map2.map Prod.snd).flatten).map
    (fun ruby =>
      { details := ruby
        installed := !(("http".data).isPrefixOf ruby.path.data)
        active := decide (active_ruby = some ruby) })

/-! ## Embedding of the catalog fetch (`fetch_available_rubies` in `list.rs`)

Time is modelled in seconds as `Nat`; the single network round trip is
modelled as an oracle `HttpResponse` consumed only on the network path; the
cache slot content (already read and deserialized, `None` for a missing
slot or bytes that fail to deserialize, matching `serde_json::from_slice(..).ok()`)
is an explicit input, and the write-back is an explicit output. -/

/-- `MINIMUM_CACHE_TTL` of `list.rs`, in seconds. -/
def MINIMUM_CACHE_TTL : Nat := 60

/-- The `CachedRelease` cache slot payload of `list.rs`. -/
structure CachedRelease where
  expires_at : Nat
  etag : Option String
  release : Release
deriving DecidableEq

/-- Status of the oracle HTTP response. -/
inductive HttpStatus
  | ok
  | notModified
  | otherStatus (code : Nat)
deriving DecidableEq

/-- The oracle HTTP response: status, relevant headers, and the parsed JSON
body for a 200 (`none` models a body that fails to parse). -/
structure HttpResponse where
  status : HttpStatus
  cacheControl : Option String
  etagHeader : Option String
  body : Option Release
deriving DecidableEq

/-- Observable outcome of one `fetch_available_rubies` call: the returned
catalog (`none` models `Err`), whether the network was consulted, and the
cache entry written back (`none` means the slot was left untouched). -/
structure FetchOutcome where
  result : Option Release
  networkUsed : Bool
  written : Option CachedRelease
deriving DecidableEq

/-- The stale-or-missing continuation of `fetch_available_rubies`
(steps 3-4 of the source: conditional request and response handling). -/
def fetchNetwork (cached_data : Option CachedRelease) (now : Nat)
    (response : HttpResponse) : FetchOutcome :=
  match response.status with
  | .notModified =>
    match cached_data with
    | none => { result := none, networkUsed := true, written := none }
    | some stale_cache =>
      let max_age := (response.cacheControl.bind parse_max_age).getD 60
      let updated := { stale_cache with expires_at := now + max max_age MINIMUM_CACHE_TTL }
      { result := some updated.release, networkUsed := true, written := some updated }
  | .ok =>
    match response.body with
    | none => { result := none, networkUsed := true, written := none }
    | some release =>
      let max_age := (response.cacheControl.bind parse_max_age).getD 60
      let new_cache_entry : CachedRelease :=
        { expires_at := now + max max_age MINIMUM_CACHE_TTL
          etag := response.etagHeader
          release := release }
      { result := some release, networkUsed := true, written := some new_cache_entry }
  | .otherStatus _ => { result := none, networkUsed := true, written := none }

/-- `fetch_available_rubies` of `list.rs`: the `RV_RELEASES_URL = "-"`
sentinel short-circuits to an empty catalog; a present, fresh cache entry
is returned without any network activity; otherwise the conditional
request is made and reconciled. -/
def fetch_available_rubies (api_base : String) (cached_data : Option CachedRelease)
    (now : Nat) (response : HttpResponse) : FetchOutcome :=
  if api_base = "-" then
    { result := some { name := "Empty release", assets := [] }
      networkUsed := false
      written := none }
  else
    match cached_data with
    | some cache =>
      if now < cache.expires_at then
        { result := some cache.release, networkUsed := false, written := none }
      else fetchNetwork cached_data now response
    | none => fetchNetwork none now response

/-! ## Embedding of `crates/rv/src/config/ruby_cache.rs`

The filesystem is an explicit record: `probe` is `Ruby::from_dir` (`none`
for `Err`), `mtime` is the `bin/ruby` existence check plus
`Timestamp::from_path` (`none` when either fails), and `valid` is
`Ruby::is_valid` — all externally defined in `rv_ruby`, held abstract
here. The cache digest key is modelled as the pair (path, timestamp)
itself, a faithful model of an injective fingerprint. The cache store maps
keys to `none` (no entry), `some none` (bytes that fail to deserialize) or
`some (some r)` (a deserializable entry). -/

structure RubyFS where
  probe : String → Option Ruby
  mtime : String → Option Nat
  valid : Ruby → Bool

/-- Modelled from the spec: the "digest key" — "a deterministic fingerprint
derived from a path and its modification timestamp" — kept as the pair
itself. -/
abbrev CacheKey := String × Nat

abbrev RubyCacheState := CacheKey → Option (Option Ruby)

/-- Delete one cache entry (`fs_err::remove_file` on the entry path). -/
def cacheErase (st : RubyCacheState) (k : CacheKey) : RubyCacheState :=
  fun k2 => if k2 = k then none else st k2

/-- Write one cache entry (`fs_err::write` of the serialized ruby). -/
def cacheWrite (st : RubyCacheState) (k : CacheKey) (r : Ruby) : RubyCacheState :=
  fun k2 => if k2 = k then some (some r) else st k2

/-- `ruby_path_cache_key` of `ruby_cache.rs`: fails (`Miss`) when
`bin/ruby` is absent or its timestamp is unreadable. -/
def ruby_path_cache_key (fs : RubyFS) (ruby_path : String) : Option CacheKey :=
  (fs.mtime ruby_path).map fun t => (ruby_path, t)

inductive CacheLookup
  | hit (r : Ruby)
  | miss
deriving DecidableEq

/-- `get_cached_ruby` of `ruby_cache.rs`: read and deserialize the entry
under the path key; a payload that fails to deserialize, or deserializes
but fails `is_valid`, is deleted before reporting a miss; a valid payload
is a hit. -/
def get_cached_ruby (fs : RubyFS) (st : RubyCacheState) (ruby_path : String) :
    CacheLookup × RubyCacheState :=
  match ruby_path_cache_key fs ruby_path with
  | none => (.miss, st)
  | some key =>
    match st key with
    | none => (.miss, st)
    | some none => (.miss, cacheErase st key)
    | some (some cached_ruby) =>
      if fs.valid cached_ruby then (.hit cached_ruby, st)
      else (.miss, cacheErase st key)

/-- `cache_ruby` of `ruby_cache.rs`: best-effort write under the key of the
ruby's own path (a key failure leaves the store untouched, mirroring the
ignored error). -/
def cache_ruby (fs : RubyFS) (st : RubyCacheState) (ruby : Ruby) : RubyCacheState :=
  match ruby_path_cache_key fs ruby.path with
  | some key => cacheWrite st key ruby
  | none => st

/-- Per-candidate step of `discover_rubies`: the closure of the parallel
`filter_map`. `kept` is the contributed installation, `fromCache` records
whether it was served by the cache, `probed` whether `Ruby::from_dir` ran. -/
structure ScanStep where
  kept : Option Ruby
  fromCache : Bool
  probed : Bool
  st : RubyCacheState

/-- The cache-miss continuation of the per-candidate step: run
`Ruby::from_dir`, keep a valid installation (caching it best-effort), drop
an invalid or erroring candidate. -/
def probe_candidate (fs : RubyFS) (st : RubyCacheState) (ruby_path : String) : ScanStep :=
  match fs.probe ruby_path with
  | some ruby =>
    if fs.valid ruby then ⟨some ruby, false, true, cache_ruby fs st ruby⟩
    else ⟨none, false, true, st⟩
  | none => ⟨none, false, true, st⟩

def scan_candidate (fs : RubyFS) (st : RubyCacheState) (ruby_path : String) : ScanStep :=
  match get_cached_ruby fs st ruby_path with
  | (.hit cached_ruby, st2) => ⟨some cached_ruby, true, false, st2⟩
  | (.miss, st2) => probe_candidate fs st2 ruby_path

/-- Result of scanning a candidate list: contributed installations tagged
with their cache-hit flag, and the final cache state. -/
structure ScanResult where
  found : List (Ruby × Bool)
  st : RubyCacheState

def scan_all (fs : RubyFS) (st : RubyCacheState) : List String → ScanResult
  | [] => ⟨[], st⟩
  | p :: ps =>
    let step := scan_candidate fs st p
    let rest := scan_all fs step.st ps
    ⟨(match step.kept with
        | some r => (r, step.fromCache) :: rest.found
        | none => rest.found),
      rest.st⟩

/-- The `Installation` sort order as a proposition: `cmpRuby a b ≠ .gt`. -/
def rubyLe (a b : Ruby) : Prop := cmpRuby a b ≠ Ordering.gt

instance : DecidableRel rubyLe := fun a b => by
  unfold rubyLe
  infer_instance

instance : IsTotal Ruby rubyLe where
  total a b := by
    unfold rubyLe
    cases hc : cmpRuby a b with
    | lt => left; simp [hc]
    | eq => left; simp [hc]
    | gt =>
      right
      have := (cmpRuby_lawful.gt_iff_lt a b).mp hc
      simp [this]

instance : IsTrans Ruby rubyLe where
  trans a b d h1 h2 := by
    unfold rubyLe at *
    intro hc
    have hda : cmpRuby d a = Ordering.lt := (cmpRuby_lawful.gt_iff_lt a d).mp hc
    cases hab : cmpRuby a b with
    | gt => exact h1 hab
    | eq =>
      have : a = b := (cmpRuby_lawful.eq_iff a b).mp hab
      subst this
      exact h2 hc
    | lt =>
      cases hbd : cmpRuby b d with
      | gt => exact h2 hbd
      | eq =>
        have : b = d := (cmpRuby_lawful.eq_iff b d).mp hbd
        subst this
        exact cmpRuby_lawful.lt_asymm hab hda
      | lt =>
        have := cmpRuby_lawful.lt_trans a b d hab hbd
        exact cmpRuby_lawful.lt_asymm this hda

instance : IsAntisymm Ruby rubyLe where
  antisymm a b h1 h2 := by
    unfold rubyLe at *
    refine cmpRuby_lawful.eq_of_not_lt_not_gt ?hl h1
    intro hab
    exact h2 ((cmpRuby_lawful.lt_iff_gt a b).mp hab)

/-- `discover_rubies` of `ruby_cache.rs`, over an explicit candidate list
(the flattened immediate subdirectories of the existing search roots):
process every candidate through the cache-or-probe step, then sort by the
`Installation` order (`rubies.sort()`). -/
def discover_rubies (fs : RubyFS) (st : RubyCacheState) (candidates : List String) :
    List Ruby :=
  List.insertionSort rubyLe ((scan_all fs st candidates).found.map Prod.fst)

/-! ## Embedding of `matching_ruby` (`config.rs`) -/

/-- `matching_ruby` of `config.rs`, over the discovered sorted list and the
opaque `satisfied_by` predicate of the request: scan in reverse order and
return the first satisfying installation. -/
def matching_ruby (rubies : List Ruby) (satisfied_by : Ruby → Bool) : Option Ruby :=
  rubies.reverse.find? satisfied_by

/-! ## Claims about the catalog fetch -/

/-- C5: if a cached `CatalogCacheEntry` exists and the current time is
strictly before its `expires_at`, `fetch_available_rubies` returns that
entry's catalog unchanged, performs no network request, and leaves the
cached entry unmodified (given the endpoint is not the no-network
sentinel). -/
theorem fetch_fast_path_uses_cache (api_base : String) (c : CachedRelease) (now : Nat)
    (response : HttpResponse) (hbase : api_base ≠ "-") (hfresh : now < c.expires_at) :
    fetch_available_rubies api_base (some c) now response =
      { result := some c.release, networkUsed := false, written := none } := by
  unfold fetch_available_rubies
  rw [if_neg hbase]
  simp [hfresh]

theorem fetch_fast_path_uses_cache_witness :
    ("https://api.github.com" ≠ "-") ∧ ((5 : Nat) < 100) ∧
      fetch_available_rubies "https://api.github.com"
          (some ⟨100, some "tag", ⟨"r1", []⟩⟩) 5
          ⟨.ok, none, none, none⟩ =
        { result := some (⟨"r1", []⟩ : Release), networkUsed := false, written := none } :=
  ⟨by decide, by decide,
    fetch_fast_path_uses_cache "https://api.github.com" ⟨100, some "tag", ⟨"r1", []⟩⟩ 5
      ⟨.ok, none, none, none⟩ (by decide) (by decide)⟩

/-- C6: on every successful 200 (with parseable body) or 304 (with prior
entry) response taken on the network path, the persisted entry's
`expires_at` is the response time plus `max(parsed max-age, 60)`; an
absent, unparseable or `max-age`-free `Cache-Control` header defaults to
60 seconds, so the stored time-to-live is never below 60 seconds. -/
theorem fetch_success_ttl_floor (api_base : String) (cached_data : Option CachedRelease)
    (now : Nat) (response : HttpResponse) (hbase : api_base ≠ "-")
    (hstale : ∀ c, cached_data = some c → ¬ now < c.expires_at)
    (hsucc : (response.status = .ok ∧ response.body.isSome = true) ∨
      (response.status = .notModified ∧ cached_data.isSome = true)) :
    ∃ w, (fetch_available_rubies api_base cached_data now response).written = some w ∧
      w.expires_at =
        now + max ((response.cacheControl.bind parse_max_age).getD 60) MINIMUM_CACHE_TTL ∧
      now + 60 ≤ w.expires_at ∧
      (response.cacheControl = none → w.expires_at = now + 60) := by
  have hnet : fetch_available_rubies api_base cached_data now response =
      fetchNetwork cached_data now response := by
    unfold fetch_available_rubies
    rw [if_neg hbase]
    cases cached_data with
    | none => rfl
    | some c =>
      have := hstale c rfl
      simp [this]
  rw [hnet]
  have hfloor : MINIMUM_CACHE_TTL ≤
      max ((response.cacheControl.bind parse_max_age).getD 60) MINIMUM_CACHE_TTL :=
    Nat.le_max_right _ _
  cases hs : response.status with
  | ok =>
    rcases hsucc with ⟨_, hbody⟩ | ⟨hcon, _⟩
    · cases hb : response.body with
      | none => rw [hb] at hbody; cases hbody
      | some rel =>
        refine
          ⟨{ expires_at :=
                now + max ((response.cacheControl.bind parse_max_age).getD 60) MINIMUM_CACHE_TTL
             etag := response.etagHeader
             release := rel }, ?he, rfl, ?hf, ?hn⟩
        · unfold fetchNetwork
          rw [hs, hb]
        · exact Nat.add_le_add_left hfloor now
        · intro hcc
          simp [hcc, MINIMUM_CACHE_TTL]
    · rw [hs] at hcon; cases hcon
  | notModified =>
    rcases hsucc with ⟨hcon, _⟩ | ⟨_, hsome⟩
    · rw [hs] at hcon; cases hcon
    · cases hc : cached_data with
      | none => rw [hc] at hsome; cases hsome
      | some c =>
        refine
          ⟨{ c with
              expires_at :=
                now + max ((response.cacheControl.bind parse_max_age).getD 60)
                  MINIMUM_CACHE_TTL }, ?he2, rfl, ?hf2, ?hn2⟩
        · unfold fetchNetwork
          rw [hs]
        · exact Nat.add_le_add_left hfloor now
        · intro hcc
          simp [hcc, MINIMUM_CACHE_TTL]
  | otherStatus code =>
    rcases hsucc with ⟨hcon, _⟩ | ⟨hcon, _⟩ <;> rw [hs] at hcon <;> cases hcon

theorem fetch_success_ttl_floor_witness :
    ("https://api.github.com" ≠ "-") ∧
      (∃ w,
        (fetch_available_rubies "https://api.github.com"
              (some ⟨10, some "tag", ⟨"r1", []⟩⟩) 20
              ⟨.notModified, some "max-age=30", none, none⟩).written = some w ∧
          w.expires_at =
            (20 : Nat) +
              max (((some "max-age=30").bind parse_max_age).getD 60) MINIMUM_CACHE_TTL ∧
          (20 : Nat) + 60 ≤ w.expires_at ∧
          ((some "max-age=30" : Option String) = none → w.expires_at = 20 + 60)) :=
  ⟨by decide,
    fetch_success_ttl_floor "https://api.github.com" (some ⟨10, some "tag", ⟨"r1", []⟩⟩) 20
      ⟨.notModified, some "max-age=30", none, none⟩ (by decide)
      (by
        intro c hc
        injection hc with h
        rw [← h]
        decide)
      (Or.inr ⟨rfl, rfl⟩)⟩

/-- C7: a 304 response with no prior cache entry (a missing slot or bytes
that fail to deserialize both yield `cached_data = none`) produces an
error and writes nothing; with a prior entry, the 304 path returns and
re-persists the same catalog and etag, changing only `expires_at`. -/
theorem fetch_not_modified_requires_prior (api_base : String)
    (cached_data : Option CachedRelease) (now : Nat) (response : HttpResponse)
    (hbase : api_base ≠ "-")
    (hstale : ∀ c, cached_data = some c → ¬ now < c.expires_at)
    (h304 : response.status = .notModified) :
    (cached_data = none →
      (fetch_available_rubies api_base cached_data now response).result = none ∧
        (fetch_available_rubies api_base cached_data now response).written = none) ∧
    (∀ c, cached_data = some c →
      (fetch_available_rubies api_base cached_data now response).result = some c.release ∧
        ∃ w, (fetch_available_rubies api_base cached_data now response).written = some w ∧
          w.release = c.release ∧ w.etag = c.etag ∧
          w = { c with expires_at := w.expires_at }) := by
  have hnet : fetch_available_rubies api_base cached_data now response =
      fetchNetwork cached_data now response := by
    unfold fetch_available_rubies
    rw [if_neg hbase]
    cases cached_data with
    | none => rfl
    | some c =>
      have := hstale c rfl
      simp [this]
  rw [hnet]
  constructor
  · rintro rfl
    unfold fetchNetwork
    rw [h304]
    exact ⟨rfl, rfl⟩
  · rintro c rfl
    unfold fetchNetwork
    rw [h304]
    exact ⟨rfl, _, rfl, rfl, rfl, rfl⟩

theorem fetch_not_modified_requires_prior_witness :
    ("https://api.github.com" ≠ "-") ∧
      ((fetch_available_rubies "https://api.github.com" none 20
            ⟨.notModified, none, none, none⟩).result = none ∧
        (fetch_available_rubies "https://api.github.com" none 20
            ⟨.notModified, none, none, none⟩).written = none) :=
  ⟨by decide,
    (fetch_not_modified_requires_prior "https://api.github.com" none 20
        ⟨.notModified, none, none, none⟩ (by decide) (by intro c hc; cases hc) rfl).1 rfl⟩

/-! ## Claims about the installation cache and request resolution -/

/-- C8: for every path whose cache key is computable, a stored payload that
fails to deserialize, or that deserializes but fails independent
re-validation, causes `get_cached_ruby` to delete that cache entry (and
only it) and report a miss; a valid payload is returned unchanged with the
store untouched. -/
theorem get_cached_ruby_never_serves_invalid (fs : RubyFS) (st : RubyCacheState)
    (ruby_path : String) (t : Nat) (hm : fs.mtime ruby_path = some t) :
    (st (ruby_path, t) = some none →
      get_cached_ruby fs st ruby_path = (.miss, cacheErase st (ruby_path, t))) ∧
    (∀ r, st (ruby_path, t) = some (some r) → fs.valid r = false →
      get_cached_ruby fs st ruby_path = (.miss, cacheErase st (ruby_path, t))) ∧
    (∀ r, st (ruby_path, t) = some (some r) → fs.valid r = true →
      get_cached_ruby fs st ruby_path = (.hit r, st)) ∧
    cacheErase st (ruby_path, t) (ruby_path, t) = none ∧
    (∀ k, k ≠ (ruby_path, t) → cacheErase st (ruby_path, t) k = st k) := by
  have hkey : ruby_path_cache_key fs ruby_path = some (ruby_path, t) := by
    unfold ruby_path_cache_key
    rw [hm]
    rfl
  refine ⟨?hbad, ?hinv, ?hok, ?hdel, ?hoth⟩
  · intro hst
    unfold get_cached_ruby
    simp only [hkey, hst]
  · intro r hst hval
    unfold get_cached_ruby
    simp only [hkey, hst, hval]
    simp
  · intro r hst hval
    unfold get_cached_ruby
    simp only [hkey, hst, hval]
    simp
  · unfold cacheErase
    simp
  · intro k hk
    unfold cacheErase
    simp [hk]

theorem get_cached_ruby_never_serves_invalid_witness :
    ((fun p => if p = "/opt/rubies/r1" then some 7 else none) "/opt/rubies/r1" = some 7) ∧
      get_cached_ruby
          { probe := fun _ => none
            mtime := fun p => if p = "/opt/rubies/r1" then some 7 else none
            valid := fun _ => false }
          (fun k => if k = ("/opt/rubies/r1", 7) then some none else none)
          "/opt/rubies/r1" =
        (.miss,
          cacheErase (fun k => if k = ("/opt/rubies/r1", 7) then some none else none)
            ("/opt/rubies/r1", 7)) :=
  ⟨by decide,
    (get_cached_ruby_never_serves_invalid
        { probe := fun _ => none
          mtime := fun p => if p = "/opt/rubies/r1" then some 7 else none
          valid := fun _ => false }
        (fun k => if k = ("/opt/rubies/r1", 7) then some none else none)
        "/opt/rubies/r1" 7 (by decide)).1 (by decide)⟩

/-- On a reversed list, `find?` selects the last satisfying element of the
original list. -/
theorem find_reverse_eq_getLast_filter (p : α → Bool) (l : List α) :
    l.reverse.find? p = (l.filter p).getLast? := by
  induction l using List.reverseRecOn with
  | nil => rfl
  | append_singleton ys y ih =>
    rw [List.reverse_append, List.reverse_singleton, List.singleton_append,
      List.filter_append]
    cases hy : p y with
    | true =>
      rw [List.find?_cons_of_pos _ hy]
      have hone : List.filter p [y] = [y] := by simp [hy]
      rw [hone, List.getLast?_concat]
    | false =>
      rw [List.find?_cons_of_neg _ (by simp [hy])]
      have hnone : List.filter p [y] = [] := by simp [hy]
      rw [hnone, List.append_nil, ih]

/-- C9: `matching_ruby` returns the last element of the list satisfying
`satisfied_by` (the first in reverse scan order), and returns `None` — not
an error — exactly when no element satisfies the request. -/
theorem matching_ruby_reverse_first (rubies : List Ruby) (satisfied_by : Ruby → Bool) :
    matching_ruby rubies satisfied_by = (rubies.filter satisfied_by).getLast? ∧
    (matching_ruby rubies satisfied_by = none ↔
      ∀ r ∈ rubies, satisfied_by r = false) := by
  constructor
  · exact find_reverse_eq_getLast_filter satisfied_by rubies
  · unfold matching_ruby
    rw [List.find?_eq_none]
    constructor
    · intro h r hr
      have := h r (List.mem_reverse.mpr hr)
      simpa using this
    · intro h r hr
      have := h r (List.mem_reverse.mp hr)
      simp [this]

theorem matching_ruby_reverse_first_witness :
    matching_ruby [] (fun _ => true) = (List.filter (fun _ => true) []).getLast? ∧
      (matching_ruby [] (fun _ => true) = none ↔
        ∀ r ∈ ([] : List Ruby), (fun _ => true) r = false) :=
  matching_ruby_reverse_first [] (fun _ => true)

/-! ## Lemmas about the sorted association-list map -/

/-- Strictly-sorted-keys invariant of the `BTreeMap` model. -/
def MapWF (c : κ → κ → Ordering) (m : List (κ × ν)) : Prop :=
  List.Pairwise (fun x y => c x.1 y.1 = Ordering.lt) m

theorem mapWF_nil {c : κ → κ → Ordering} : MapWF c ([] : List (κ × ν)) := List.Pairwise.nil

theorem btreeFind_insert_self [DecidableEq κ] {c : κ → κ → Ordering}
    (hc : IsLawfulCmp c) (k : κ) (v : ν) (m : List (κ × ν)) :
    btreeFind k (btreeInsert c k v m) = some v := by
  induction m with
  | nil => simp [btreeInsert, btreeFind]
  | cons x m ih =>
    obtain ⟨k2, v2⟩ := x
    simp only [btreeInsert]
    cases hcmp : c k k2 with
    | lt => simp [btreeFind]
    | eq => simp [btreeFind]
    | gt =>
      have hne : k ≠ k2 := by
        intro h
        rw [h, hc.refl] at hcmp
        cases hcmp
      simp [btreeFind, hne, ih]

theorem btreeFind_insert_ne [DecidableEq κ] {c : κ → κ → Ordering}
    (hc : IsLawfulCmp c) (k k2 : κ) (v : ν) (m : List (κ × ν)) (hne : k2 ≠ k) :
    btreeFind k2 (btreeInsert c k v m) = btreeFind k2 m := by
  induction m with
  | nil => simp [btreeInsert, btreeFind, hne]
  | cons x m ih =>
    obtain ⟨k3, v3⟩ := x
    simp only [btreeInsert]
    cases hcmp : c k k3 with
    | lt => simp [btreeFind, hne]
    | eq =>
      have hk : k = k3 := (hc.eq_iff k k3).mp hcmp
      subst hk
      simp [btreeFind, hne]
    | gt => simp [btreeFind, ih]

theorem btreeInsert_mem {c : κ → κ → Ordering} {k : κ} {v : ν} {m : List (κ × ν)}
    {x : κ × ν} (hx : x ∈ btreeInsert c k v m) : x = (k, v) ∨ x ∈ m := by
  induction m with
  | nil => simpa [btreeInsert] using hx
  | cons y m ih =>
    obtain ⟨k2, v2⟩ := y
    simp only [btreeInsert] at hx
    cases hcmp : c k k2 with
    | lt =>
      rw [hcmp] at hx
      rcases List.mem_cons.mp hx with h | h
      · exact Or.inl h
      · exact Or.inr h
    | eq =>
      rw [hcmp] at hx
      rcases List.mem_cons.mp hx with h | h
      · exact Or.inl h
      · exact Or.inr (List.mem_cons.mpr (Or.inr h))
    | gt =>
      rw [hcmp] at hx
      rcases List.mem_cons.mp hx with h | h
      · exact Or.inr (List.mem_cons.mpr (Or.inl h))
      · rcases ih h with h2 | h2
        · exact Or.inl h2
        · exact Or.inr (List.mem_cons.mpr (Or.inr h2))

theorem btreeFind_eq_none_iff [DecidableEq κ] {k : κ} {m : List (κ × ν)} :
    btreeFind k m = none ↔ ∀ x ∈ m, x.1 ≠ k := by
  induction m with
  | nil => simp [btreeFind]
  | cons x m ih =>
    obtain ⟨k2, v2⟩ := x
    by_cases hk : k = k2
    · subst hk
      simp [btreeFind]
    · simp only [btreeFind, if_neg hk]
      rw [ih]
      constructor
      · intro h x hx
        rcases List.mem_cons.mp hx with hx | hx
        · rw [hx]
          exact fun hcon => hk hcon.symm
        · exact h x hx
      · intro h x hx
        exact h x (List.mem_cons.mpr (Or.inr hx))

theorem btreeFind_some_mem [DecidableEq κ] {k : κ} {v : ν} {m : List (κ × ν)}
    (h : btreeFind k m = some v) : (k, v) ∈ m := by
  induction m with
  | nil => simp [btreeFind] at h
  | cons x m ih =>
    obtain ⟨k2, v2⟩ := x
    by_cases hk : k = k2
    · subst hk
      simp [btreeFind] at h
      simp [h]
    · simp only [btreeFind, if_neg hk] at h
      exact List.mem_cons_of_mem _ (ih h)

theorem btreeInsert_wf {c : κ → κ → Ordering} (hc : IsLawfulCmp c) {k : κ} {v : ν}
    {m : List (κ × ν)} (hm : MapWF c m) : MapWF c (btreeInsert c k v m) := by
  unfold MapWF at hm ⊢
  induction m with
  | nil => simp [btreeInsert]
  | cons x m ih =>
    obtain ⟨k2, v2⟩ := x
    rw [List.pairwise_cons] at hm
    obtain ⟨hhead, htail⟩ := hm
    simp only [btreeInsert]
    cases hcmp : c k k2 with
    | lt =>
      rw [List.pairwise_cons]
      constructor
      · intro y hy
        rcases List.mem_cons.mp hy with hy | hy
        · rw [hy]
          exact hcmp
        · exact hc.lt_trans _ _ _ hcmp (hhead y hy)
      · rw [List.pairwise_cons]
        exact ⟨hhead, htail⟩
    | eq =>
      have hk : k = k2 := (hc.eq_iff k k2).mp hcmp
      subst hk
      rw [List.pairwise_cons]
      exact ⟨hhead, htail⟩
    | gt =>
      rw [List.pairwise_cons]
      constructor
      · intro y hy
        rcases btreeInsert_mem hy with h2 | h2
        · rw [h2]
          exact (hc.gt_iff_lt k k2).mp hcmp
        · exact hhead y h2
      · exact ih htail

/-- Groups carry only elements whose key is the group key. -/
def GroupWF (keyOf : α → κ) (m : List (κ × List α)) : Prop :=
  ∀ x ∈ m, ∀ r ∈ x.2, keyOf r = x.1

/-- Groups are nonempty. -/
def NonemptyGroups (m : List (κ × List α)) : Prop := ∀ x ∈ m, x.2 ≠ []

theorem btreePush_find_self [DecidableEq κ] {c : κ → κ → Ordering}
    (hc : IsLawfulCmp c) (k : κ) (x : α) (m : List (κ × List α)) :
    btreeFind k (btreePush c k x m) = some ((btreeFind k m).getD [] ++ [x]) := by
  unfold btreePush
  cases hf : btreeFind k m with
  | some vs => simp [btreeFind_insert_self hc, hf]
  | none => simp [btreeFind_insert_self hc, hf]

theorem btreePush_find_ne [DecidableEq κ] {c : κ → κ → Ordering}
    (hc : IsLawfulCmp c) (k k2 : κ) (x : α) (m : List (κ × List α)) (hne : k2 ≠ k) :
    btreeFind k2 (btreePush c k x m) = btreeFind k2 m := by
  unfold btreePush
  cases hf : btreeFind k m with
  | some vs => rw [btreeFind_insert_ne hc _ _ _ _ hne]
  | none => rw [btreeFind_insert_ne hc _ _ _ _ hne]

theorem btreePush_wf [DecidableEq κ] {c : κ → κ → Ordering} (hc : IsLawfulCmp c)
    {k : κ} {x : α} {m : List (κ × List α)} (hm : MapWF c m) :
    MapWF c (btreePush c k x m) := by
  unfold btreePush
  cases btreeFind k m <;> exact btreeInsert_wf hc hm

theorem btreePush_groupwf [DecidableEq κ] {c : κ → κ → Ordering} {keyOf : α → κ}
    {k : κ} {x : α} {m : List (κ × List α)} (hm : GroupWF keyOf m)
    (hx : keyOf x = k) : GroupWF keyOf (btreePush c k x m) := by
  unfold btreePush
  cases hf : btreeFind k m with
  | some vs =>
    intro y hy r hr
    rcases btreeInsert_mem hy with h2 | h2
    · subst h2
      simp only [] at hr
      rcases List.mem_append.mp hr with h3 | h3
      · exact hm (k, vs) (btreeFind_some_mem hf) r h3
      · simp at h3
        simp [h3, hx]
    · exact hm y h2 r hr
  | none =>
    intro y hy r hr
    rcases btreeInsert_mem hy with h2 | h2
    · subst h2
      simp only [] at hr
      simp at hr
      simp [hr, hx]
    · exact hm y h2 r hr

theorem btreePush_nonempty [DecidableEq κ] {c : κ → κ → Ordering}
    {k : κ} {x : α} {m : List (κ × List α)} (hm : NonemptyGroups m) :
    NonemptyGroups (btreePush c k x m) := by
  unfold btreePush
  cases hf : btreeFind k m with
  | some vs =>
    intro y hy
    rcases btreeInsert_mem hy with h2 | h2
    · subst h2
      simp
    · exact hm y h2
  | none =>
    intro y hy
    rcases btreeInsert_mem hy with h2 | h2
    · subst h2
      simp
    · exact hm y h2

/-- One grouping fold step invariance package: folding `btreePush` over a
list appends, per key, exactly the matching elements in input order. -/
theorem foldl_push_spec [DecidableEq κ] {c : κ → κ → Ordering} (hc : IsLawfulCmp c)
    (keyOf : α → κ) :
    ∀ (rs : List α) (m : List (κ × List α)) (d : κ),
      (btreeFind d (rs.foldl (fun acc r => btreePush c (keyOf r) r acc) m) = none ↔
        (btreeFind d m = none ∧ rs.filter (fun r => decide (keyOf r = d)) = [])) ∧
      (btreeFind d (rs.foldl (fun acc r => btreePush c (keyOf r) r acc) m)).getD [] =
        (btreeFind d m).getD [] ++ rs.filter (fun r => decide (keyOf r = d)) := by
  intro rs
  induction rs with
  | nil =>
    intro m d
    simp
  | cons r rs ih =>
    intro m d
    simp only [List.foldl_cons]
    by_cases hk : keyOf r = d
    · subst hk
      have hf : List.filter (fun r2 => decide (keyOf r2 = keyOf r)) (r :: rs) =
          r :: List.filter (fun r2 => decide (keyOf r2 = keyOf r)) rs := by
        simp
      rw [hf]
      constructor
      · rw [(ih (btreePush c (keyOf r) r m) (keyOf r)).1]
        rw [btreePush_find_self hc]
        constructor
        · rintro ⟨hcon, -⟩
          cases hcon
        · rintro ⟨-, hcon⟩
          cases hcon
      · rw [(ih (btreePush c (keyOf r) r m) (keyOf r)).2]
        rw [btreePush_find_self hc]
        simp
    · have hf : List.filter (fun r2 => decide (keyOf r2 = d)) (r :: rs) =
          List.filter (fun r2 => decide (keyOf r2 = d)) rs := by
        simp [hk]
      rw [hf]
      constructor
      · rw [(ih (btreePush c (keyOf r) r m) d).1]
        rw [btreePush_find_ne hc _ _ _ _ (fun h => hk h.symm)]
      · rw [(ih (btreePush c (keyOf r) r m) d).2]
        rw [btreePush_find_ne hc _ _ _ _ (fun h => hk h.symm)]

/-- Folding `btreePush` preserves the three map invariants. -/
theorem foldl_push_invariants [DecidableEq κ] {c : κ → κ → Ordering} (hc : IsLawfulCmp c)
    (keyOf : α → κ) :
    ∀ (rs : List α) (m : List (κ × List α)),
      MapWF c m → GroupWF keyOf m → NonemptyGroups m →
      MapWF c (rs.foldl (fun acc r => btreePush c (keyOf r) r acc) m) ∧
        GroupWF keyOf (rs.foldl (fun acc r => btreePush c (keyOf r) r acc) m) ∧
        NonemptyGroups (rs.foldl (fun acc r => btreePush c (keyOf r) r acc) m) := by
  intro rs
  induction rs with
  | nil => intro m hwf hg hn; exact ⟨hwf, hg, hn⟩
  | cons r rs ih =>
    intro m hwf hg hn
    simp only [List.foldl_cons]
    exact ih (btreePush c (keyOf r) r m) (btreePush_wf hc hwf)
      (btreePush_groupwf hg rfl) (btreePush_nonempty hn)

/-- The conditional push of the remote-merge phase: a key already present
keeps its value through the whole fold. -/
theorem foldl_condpush_preserves [DecidableEq κ] {c : κ → κ → Ordering}
    (hc : IsLawfulCmp c) (keyOf : α → κ) :
    ∀ (rs : List α) (m : List (κ × List α)) (d : κ) (vs : List α),
      btreeFind d m = some vs →
      btreeFind d
          (rs.foldl
            (fun acc r =>
              if (btreeFind (keyOf r) acc).isSome then acc
              else btreePush c (keyOf r) r acc)
            m) =
        some vs := by
  intro rs
  induction rs with
  | nil => intro m d vs h; simpa using h
  | cons r rs ih =>
    intro m d vs h
    simp only [List.foldl_cons]
    by_cases hp : (btreeFind (keyOf r) m).isSome
    · rw [if_pos hp]
      exact ih m d vs h
    · rw [if_neg hp]
      refine ih _ d vs ?keep
      by_cases hk : keyOf r = d
      · subst hk
        rw [h] at hp
        simp at hp
      · rw [btreePush_find_ne hc _ _ _ _ (fun h2 => hk h2.symm)]
        exact h

/-- The conditional push of the remote-merge phase: every processed element
ends with its key present and bound to a nonempty group. -/
theorem foldl_condpush_covers [DecidableEq κ] {c : κ → κ → Ordering}
    (hc : IsLawfulCmp c) (keyOf : α → κ) :
    ∀ (rs : List α) (m : List (κ × List α)),
      NonemptyGroups m →
      ∀ r ∈ rs,
        ∃ vs,
          btreeFind (keyOf r)
              (rs.foldl
                (fun acc r2 =>
                  if (btreeFind (keyOf r2) acc).isSome then acc
                  else btreePush c (keyOf r2) r2 acc)
                m) =
            some vs ∧ vs ≠ [] := by
  intro rs
  induction rs with
  | nil => intro m hn r hr; cases hr
  | cons r0 rs ih =>
    intro m hn r hr
    simp only [List.foldl_cons]
    have hn2 : NonemptyGroups
        (if (btreeFind (keyOf r0) m).isSome then m else btreePush c (keyOf r0) r0 m) := by
      by_cases hp : (btreeFind (keyOf r0) m).isSome
      · rwa [if_pos hp]
      · rw [if_neg hp]
        exact btreePush_nonempty hn
    rcases List.mem_cons.mp hr with hr0 | hrs
    · subst hr0
      have hstep : ∃ vs,
          btreeFind (keyOf r)
              (if (btreeFind (keyOf r) m).isSome then m else btreePush c (keyOf r) r m) =
            some vs ∧ vs ≠ [] := by
        by_cases hp : (btreeFind (keyOf r) m).isSome
        · rw [if_pos hp]
          cases hf : btreeFind (keyOf r) m with
          | none => rw [hf] at hp; cases hp
          | some vs =>
            exact ⟨vs, rfl, hn (keyOf r, vs) (btreeFind_some_mem hf)⟩
        · rw [if_neg hp]
          rw [btreePush_find_self hc]
          exact ⟨_, rfl, by simp⟩
      obtain ⟨vs, hvs, hvsne⟩ := hstep
      exact ⟨vs, foldl_condpush_preserves hc keyOf rs _ _ vs hvs, hvsne⟩
    · exact ih _ hn2 r hrs

/-- The conditional push fold preserves the three map invariants. -/
theorem foldl_condpush_invariants [DecidableEq κ] {c : κ → κ → Ordering}
    (hc : IsLawfulCmp c) (keyOf : α → κ) :
    ∀ (rs : List α) (m : List (κ × List α)),
      MapWF c m → GroupWF keyOf m → NonemptyGroups m →
      MapWF c
          (rs.foldl
            (fun acc r =>
              if (btreeFind (keyOf r) acc).isSome then acc
              else btreePush c (keyOf r) r acc)
            m) ∧
        GroupWF keyOf
            (rs.foldl
              (fun acc r =>
                if (btreeFind (keyOf r) acc).isSome then acc
                else btreePush c (keyOf r) r acc)
              m) ∧
        NonemptyGroups
            (rs.foldl
              (fun acc r =>
                if (btreeFind (keyOf r) acc).isSome then acc
                else btreePush c (keyOf r) r acc)
              m) := by
  intro rs
  induction rs with
  | nil => intro m hwf hg hn; exact ⟨hwf, hg, hn⟩
  | cons r rs ih =>
    intro m hwf hg hn
    simp only [List.foldl_cons]
    by_cases hp : (btreeFind (keyOf r) m).isSome
    · rw [if_pos hp]
      exact ih m hwf hg hn
    · rw [if_neg hp]
      exact ih _ (btreePush_wf hc hwf) (btreePush_groupwf hg rfl) (btreePush_nonempty hn)

/-- Flattening a well-formed group map and filtering on one key returns
exactly that key's group. -/
theorem flatten_filter_eq_find [DecidableEq κ] {c : κ → κ → Ordering}
    (hc : IsLawfulCmp c) (keyOf : α → κ) :
    ∀ (m : List (κ × List α)), MapWF c m → GroupWF keyOf m → ∀ d : κ,
      ((m.map Prod.snd).flatten).filter (fun r => decide (keyOf r = d)) =
        (btreeFind d m).getD [] := by
  intro m
  induction m with
  | nil => intro _ _ d; simp [btreeFind]
  | cons x m ih =>
    intro hwf hg d
    obtain ⟨k, vs⟩ := x
    unfold MapWF at hwf
    rw [List.pairwise_cons] at hwf
    obtain ⟨hhead, htail⟩ := hwf
    have hgtail : GroupWF keyOf m := fun y hy => hg y (List.mem_cons.mpr (Or.inr hy))
    have hgvs : ∀ r ∈ vs, keyOf r = k := fun r hr => hg (k, vs) (List.mem_cons.mpr (Or.inl rfl)) r hr
    simp only [List.map_cons, List.flatten_cons, List.filter_append]
    by_cases hk : k = d
    · subst hk
      have h1 : vs.filter (fun r => decide (keyOf r = k)) = vs :=
        List.filter_eq_self.mpr (fun r hr => by simp [hgvs r hr])
      have h2 : ((m.map Prod.snd).flatten).filter (fun r => decide (keyOf r = k)) = [] := by
        apply List.filter_eq_nil_iff.mpr
        intro r hr
        rcases List.mem_flatten.mp hr with ⟨s, hs, hrs⟩
        rcases List.mem_map.mp hs with ⟨y, hy, hys⟩
        have : keyOf r = y.1 := hgtail y hy r (by rw [hys]; exact hrs)
        have hne : y.1 ≠ k := by
          intro hcon
          have := hhead y hy
          rw [hcon] at this
          exact hc.lt_irrefl k this
        simp [this, hne]
      rw [h1, h2, List.append_nil]
      simp [btreeFind]
    · have h1 : vs.filter (fun r => decide (keyOf r = d)) = [] := by
        apply List.filter_eq_nil_iff.mpr
        intro r hr
        simp [hgvs r hr, hk]
      rw [h1, List.nil_append]
      rw [ih htail hgtail d]
      simp only [btreeFind]
      rw [if_neg (fun h => hk h.symm)]

/-- Flattening a well-formed group map yields a list whose keys ascend
weakly (the `BTreeMap::into_values` iteration order). -/
theorem flatten_pairwise_le [DecidableEq κ] {c : κ → κ → Ordering}
    (hc : IsLawfulCmp c) (keyOf : α → κ) :
    ∀ (m : List (κ × List α)), MapWF c m → GroupWF keyOf m →
      ((m.map Prod.snd).flatten).Pairwise
        (fun a b => c (keyOf a) (keyOf b) ≠ Ordering.gt) := by
  intro m
  induction m with
  | nil => intro _ _; simp
  | cons x m ih =>
    intro hwf hg
    obtain ⟨k, vs⟩ := x
    unfold MapWF at hwf
    rw [List.pairwise_cons] at hwf
    obtain ⟨hhead, htail⟩ := hwf
    have hgtail : GroupWF keyOf m := fun y hy => hg y (List.mem_cons.mpr (Or.inr hy))
    have hgvs : ∀ r ∈ vs, keyOf r = k := fun r hr => hg (k, vs) (List.mem_cons.mpr (Or.inl rfl)) r hr
    simp only [List.map_cons, List.flatten_cons]
    rw [List.pairwise_append]
    refine ⟨?hvs, ih htail hgtail, ?hcross⟩
    · apply List.pairwise_of_forall_mem_list
      intro a ha b hb
      rw [hgvs a ha, hgvs b hb, hc.refl k]
      simp
    · intro a ha b hb
      rcases List.mem_flatten.mp hb with ⟨s, hs, hbs⟩
      rcases List.mem_map.mp hs with ⟨y, hy, hys⟩
      have hkb : keyOf b = y.1 := hgtail y hy b (by rw [hys]; exact hbs)
      rw [hgvs a ha, hkb]
      rw [hhead y hy]
      simp

/-- `btreeFind` returns exactly the stored pair on a well-formed map. -/
theorem btreeFind_of_mem_wf [DecidableEq κ] {c : κ → κ → Ordering} (hc : IsLawfulCmp c)
    {m : List (κ × ν)} (hwf : MapWF c m) {k : κ} {v : ν} (hmem : (k, v) ∈ m) :
    btreeFind k m = some v := by
  induction m with
  | nil => cases hmem
  | cons x m ih =>
    obtain ⟨k2, v2⟩ := x
    unfold MapWF at hwf
    rw [List.pairwise_cons] at hwf
    obtain ⟨hhead, htail⟩ := hwf
    rcases List.mem_cons.mp hmem with h | h
    · rw [Prod.mk.injEq] at h
      obtain ⟨rfl, rfl⟩ := h
      simp [btreeFind]
    · have hne : k ≠ k2 := by
        intro hcon
        subst hcon
        have := hhead (k, v) h
        exact hc.lt_irrefl k this
      simp only [btreeFind, if_neg hne]
      exact ih htail h

/-- A key absent from the initial map and present after the conditional
push fold was created by exactly one fold element, as a singleton group. -/
theorem foldl_condpush_new_group [DecidableEq κ] {c : κ → κ → Ordering}
    (hc : IsLawfulCmp c) (keyOf : α → κ) :
    ∀ (rs : List α) (m : List (κ × List α)) (d : κ),
      btreeFind d m = none →
      ∀ vs,
        btreeFind d
            (rs.foldl
              (fun acc r =>
                if (btreeFind (keyOf r) acc).isSome then acc
                else btreePush c (keyOf r) r acc)
              m) =
          some vs →
        ∃ r0 ∈ rs, keyOf r0 = d ∧ vs = [r0] := by
  intro rs
  induction rs with
  | nil =>
    intro m d hnone vs hvs
    simp at hvs
    rw [hnone] at hvs
    cases hvs
  | cons r0 rs ih =>
    intro m d hnone vs hvs
    simp only [List.foldl_cons] at hvs
    by_cases hp : (btreeFind (keyOf r0) m).isSome
    · rw [if_pos hp] at hvs
      obtain ⟨r1, hr1, hk1, hv1⟩ := ih m d hnone vs hvs
      exact ⟨r1, List.mem_cons.mpr (Or.inr hr1), hk1, hv1⟩
    · rw [if_neg hp] at hvs
      by_cases hk : keyOf r0 = d
      · subst hk
        have hself : btreeFind (keyOf r0) (btreePush c (keyOf r0) r0 m) = some [r0] := by
          rw [btreePush_find_self hc, hnone]
          rfl
        have := foldl_condpush_preserves hc keyOf rs _ _ [r0] hself
        rw [this] at hvs
        injection hvs with hvs
        exact ⟨r0, List.mem_cons.mpr (Or.inl rfl), rfl, hvs.symm⟩
      · have hstill : btreeFind d (btreePush c (keyOf r0) r0 m) = none := by
          rw [btreePush_find_ne hc _ _ _ _ (fun h => hk h.symm)]
          exact hnone
        obtain ⟨r1, hr1, hk1, hv1⟩ := ih _ d hstill vs hvs
        exact ⟨r1, List.mem_cons.mpr (Or.inr hr1), hk1, hv1⟩

/-! ## Claims about the merge (`rubies_to_show`) -/

/-- The installed-grouping map built by step 1 of `rubies_to_show`. -/
def installedMap (installed_rubies : List Ruby) : List (String × List Ruby) :=
  installed_rubies.foldl (fun m ruby => btreePush cmpStr ruby.display_name ruby m) []

/-- The platform-filtered catalog rubies of step 2 of `rubies_to_show`. -/
def platformRubies (release : Release) (current_platform : String) : List Ruby :=
  (release.assets.filterMap ruby_from_asset).filter
    (fun ruby =>
      decide (ruby.os = (parse_arch_str current_platform).1) &&
        decide (ruby.arch = (parse_arch_str current_platform).2))

/-- The map after merging the deduplicated catalog (step 4 of
`rubies_to_show`). -/
def mergedMap (release : Release) (installed_rubies : List Ruby)
    (current_platform : String) : List (String × List Ruby) :=
  (latest_patch_version (platformRubies release current_platform)).foldl
    (fun m ruby =>
      if (btreeFind ruby.display_name m).isSome then m
      else btreePush cmpStr ruby.display_name ruby m)
    (installedMap installed_rubies)

/-- `rubies_to_show` decomposes as the flattening of the merged map. -/
theorem rubies_to_show_eq (release : Release) (installed_rubies : List Ruby)
    (active_ruby : Option Ruby) (current_platform : String) :
    rubies_to_show release installed_rubies active_ruby current_platform =
      (((mergedMap release installed_rubies current_platform).map Prod.snd).flatten).map
        (fun ruby =>
          { details := ruby
            installed := !(("http".data).isPrefixOf ruby.path.data)
            active := decide (active_ruby = some ruby) }) := rfl

/-- The merged map satisfies the three map invariants. -/
theorem mergedMap_invariants (release : Release) (installed_rubies : List Ruby)
    (current_platform : String) :
    MapWF cmpStr (mergedMap release installed_rubies current_platform) ∧
      GroupWF Ruby.display_name (mergedMap release installed_rubies current_platform) ∧
      NonemptyGroups (mergedMap release installed_rubies current_platform) := by
  have h1 := foldl_push_invariants cmpStr_lawful Ruby.display_name installed_rubies []
    mapWF_nil (by intro x hx; cases hx) (by intro x hx; cases hx)
  exact foldl_condpush_invariants cmpStr_lawful Ruby.display_name
    (latest_patch_version (platformRubies release current_platform))
    (installedMap installed_rubies) h1.1 h1.2.1 h1.2.2

/-- C10 (implicit): the merged list is ordered by ascending lexicographic
display-name (`BTreeMap` key order), and within one display-name group the
installed entries are exactly the input installed rubies of that display
name in their first-seen input order. -/
theorem rubies_to_show_sorted_and_grouped (release : Release)
    (installed_rubies : List Ruby) (active_ruby : Option Ruby)
    (current_platform : String) (d : String) :
    (rubies_to_show release installed_rubies active_ruby current_platform).Pairwise
      (fun a b => cmpStr a.details.display_name b.details.display_name ≠ Ordering.gt) ∧
    (installed_rubies.filter (fun r => decide (r.display_name = d)) ≠ [] →
      ((rubies_to_show release installed_rubies active_ruby current_platform).map
          (fun e => e.details)).filter (fun r => decide (r.display_name = d)) =
        installed_rubies.filter (fun r => decide (r.display_name = d))) := by
  obtain ⟨hwf, hg, hn⟩ := mergedMap_invariants release installed_rubies current_platform
  constructor
  · rw [rubies_to_show_eq]
    have hpair := flatten_pairwise_le cmpStr_lawful Ruby.display_name
      (mergedMap release installed_rubies current_platform) hwf hg
    exact hpair.map _ (fun a b h => h)
  · intro hne
    have hspec := foldl_push_spec cmpStr_lawful Ruby.display_name installed_rubies [] d
    have hnil : btreeFind d ([] : List (String × List Ruby)) = none := rfl
    have hinstalled_eq : installedMap installed_rubies =
        installed_rubies.foldl (fun acc r => btreePush cmpStr r.display_name r acc) [] := rfl
    have hfind1 : btreeFind d (installedMap installed_rubies) =
        some (installed_rubies.filter (fun r => decide (r.display_name = d))) := by
      cases hf : btreeFind d (installedMap installed_rubies) with
      | none =>
        exfalso
        rw [hinstalled_eq] at hf
        exact hne ((hspec.1.mp hf).2)
      | some vs =>
        have h2 := hspec.2
        rw [← hinstalled_eq, hf, hnil] at h2
        simp at h2
        rw [h2]
    have hfind2 : btreeFind d (mergedMap release installed_rubies current_platform) =
        some (installed_rubies.filter (fun r => decide (r.display_name = d))) :=
      foldl_condpush_preserves cmpStr_lawful Ruby.display_name _ _ _ _ hfind1
    rw [rubies_to_show_eq, List.map_map]
    have hmapid :
        (((mergedMap release installed_rubies current_platform).map Prod.snd).flatten).map
            ((fun e : JsonRubyEntry => e.details) ∘
              (fun ruby =>
                { details := ruby
                  installed := !(("http".data).isPrefixOf ruby.path.data)
                  active := decide (active_ruby = some ruby) })) =
          (((mergedMap release installed_rubies current_platform).map Prod.snd).flatten) := by
      rw [show ((fun e : JsonRubyEntry => e.details) ∘
          (fun ruby : Ruby =>
            ({ details := ruby
               installed := !(("http".data).isPrefixOf ruby.path.data)
               active := decide (active_ruby = some ruby) } : JsonRubyEntry))) =
          (fun ruby : Ruby => ruby) from rfl]
      exact List.map_id' _
    rw [hmapid]
    rw [flatten_filter_eq_find cmpStr_lawful Ruby.display_name _ hwf hg d, hfind2]
    rfl

theorem rubies_to_show_sorted_and_grouped_witness :
    (([{ key := "ruby-3.4.1-macos-aarch64"
         version := ⟨.ruby, some 3, some 4, some 1, none, none⟩
         path := "/opt/rubies/ruby-3.4.1"
         symlink := none
         arch := "aarch64"
         os := "macos"
         gem_root := none }] : List Ruby).filter
        (fun r => decide (r.display_name = "ruby-3.4.1")) ≠ []) ∧
      (rubies_to_show ⟨"latest", []⟩
          [{ key := "ruby-3.4.1-macos-aarch64"
             version := ⟨.ruby, some 3, some 4, some 1, none, none⟩
             path := "/opt/rubies/ruby-3.4.1"
             symlink := none
             arch := "aarch64"
             os := "macos"
             gem_root := none }] none "arm64_sonoma").Pairwise
        (fun a b => cmpStr a.details.display_name b.details.display_name ≠ Ordering.gt) ∧
      ((rubies_to_show ⟨"latest", []⟩
            [{ key := "ruby-3.4.1-macos-aarch64"
               version := ⟨.ruby, some 3, some 4, some 1, none, none⟩
               path := "/opt/rubies/ruby-3.4.1"
               symlink := none
               arch := "aarch64"
               os := "macos"
               gem_root := none }] none "arm64_sonoma").map
          (fun e => e.details)).filter (fun r => decide (r.display_name = "ruby-3.4.1")) =
        ([{ key := "ruby-3.4.1-macos-aarch64"
            version := ⟨.ruby, some 3, some 4, some 1, none, none⟩
            path := "/opt/rubies/ruby-3.4.1"
            symlink := none
            arch := "aarch64"
            os := "macos"
            gem_root := none }] : List Ruby).filter
          (fun r => decide (r.display_name = "ruby-3.4.1")) :=
  ⟨by decide,
    (rubies_to_show_sorted_and_grouped ⟨"latest", []⟩
        [{ key := "ruby-3.4.1-macos-aarch64"
           version := ⟨.ruby, some 3, some 4, some 1, none, none⟩
           path := "/opt/rubies/ruby-3.4.1"
           symlink := none
           arch := "aarch64"
           os := "macos"
           gem_root := none }] none "arm64_sonoma" "ruby-3.4.1").1,
    (rubies_to_show_sorted_and_grouped ⟨"latest", []⟩
        [{ key := "ruby-3.4.1-macos-aarch64"
           version := ⟨.ruby, some 3, some 4, some 1, none, none⟩
           path := "/opt/rubies/ruby-3.4.1"
           symlink := none
           arch := "aarch64"
           os := "macos"
           gem_root := none }] none "arm64_sonoma" "ruby-3.4.1").2 (by decide)⟩

/-- C1 counterexample: with installed `ruby-3.4.1` (a local path) and a
platform-matching catalog asset `ruby-3.4.0` — same engine/major/minor, a
lower patch — the merged list is NOT just the installed `3.4.1`: the remote
`3.4.0` also appears (as an available entry), because merge suppression
compares full display names, not `(engine, major, minor)` families. This
matches the source's own unit test for that scenario. -/
theorem rubies_to_show_patch_family_counterexample :
    (rubies_to_show
          ⟨"latest",
            [⟨"ruby-3.4.0.arm64_sonoma.tar.gz",
              "https://example.com/ruby-3.4.0.arm64_sonoma.tar.gz"⟩]⟩
          [{ key := "ruby-3.4.1-macos-aarch64"
             version := ⟨.ruby, some 3, some 4, some 1, none, none⟩
             path := "/opt/rubies/ruby-3.4.1"
             symlink := none
             arch := "aarch64"
             os := "macos"
             gem_root := none }]
          none "arm64_sonoma").map (fun e => (e.details.display_name, e.installed)) =
      [("ruby-3.4.0", false), ("ruby-3.4.1", true)] := by decide

/-- C1 (amended): a deduplicated platform-matching catalog entry whose
display name differs from every installed display name — in particular a
same-family remote with a different patch — is never suppressed: the
merged list contains a catalog-derived entry with exactly its display
name. Suppression happens only on exact display-name equality. -/
theorem rubies_to_show_unmatched_remote_shown (release : Release)
    (installed_rubies : List Ruby) (active_ruby : Option Ruby)
    (current_platform : String) (r : Ruby)
    (hmem : r ∈ latest_patch_version (platformRubies release current_platform))
    (hnone : ∀ i ∈ installed_rubies, i.display_name ≠ r.display_name) :
    ∃ r2 ∈ latest_patch_version (platformRubies release current_platform),
      r2.display_name = r.display_name ∧
      ({ details := r2
         installed := !(("http".data).isPrefixOf r2.path.data)
         active := decide (active_ruby = some r2) } : JsonRubyEntry) ∈
        rubies_to_show release installed_rubies active_ruby current_platform := by
  have hspec := foldl_push_spec cmpStr_lawful Ruby.display_name installed_rubies []
    r.display_name
  have hinstalled_eq : installedMap installed_rubies =
      installed_rubies.foldl (fun acc r2 => btreePush cmpStr r2.display_name r2 acc) [] := rfl
  have hfilter : installed_rubies.filter
      (fun r2 => decide (r2.display_name = r.display_name)) = [] := by
    apply List.filter_eq_nil_iff.mpr
    intro i hi
    simp [hnone i hi]
  have hnone1 : btreeFind r.display_name (installedMap installed_rubies) = none := by
    rw [hinstalled_eq]
    exact hspec.1.mpr ⟨rfl, hfilter⟩
  have hcover := foldl_condpush_covers cmpStr_lawful Ruby.display_name
    (latest_patch_version (platformRubies release current_platform))
    (installedMap installed_rubies)
    (by
      have h1 := foldl_push_invariants cmpStr_lawful Ruby.display_name installed_rubies []
        mapWF_nil (by intro x hx; cases hx) (by intro x hx; cases hx)
      exact h1.2.2)
    r hmem
  obtain ⟨vs, hvs, hvsne⟩ := hcover
  obtain ⟨r2, hr2mem, hr2key, hr2vs⟩ :=
    foldl_condpush_new_group cmpStr_lawful Ruby.display_name
      (latest_patch_version (platformRubies release current_platform))
      (installedMap installed_rubies) r.display_name hnone1 vs hvs
  refine ⟨r2, hr2mem, hr2key, ?hout⟩
  rw [rubies_to_show_eq]
  apply List.mem_map.mpr
  refine ⟨r2, ?hflat, rfl⟩
  apply List.mem_flatten.mpr
  refine ⟨vs, ?hvsmem, by rw [hr2vs]; exact List.mem_cons.mpr (Or.inl rfl)⟩
  apply List.mem_map.mpr
  exact ⟨(r.display_name, vs), btreeFind_some_mem hvs, rfl⟩

theorem rubies_to_show_unmatched_remote_shown_witness :
    ({ key := "ruby-3.4.0-macos-aarch64"
       version := ⟨.ruby, some 3, some 4, some 0, none, none⟩
       path := "https://example.com/ruby-3.4.0.arm64_sonoma.tar.gz"
       symlink := none
       arch := "aarch64"
       os := "macos"
       gem_root := none } : Ruby) ∈
      latest_patch_version
        (platformRubies
          ⟨"latest",
            [⟨"ruby-3.4.0.arm64_sonoma.tar.gz",
              "https://example.com/ruby-3.4.0.arm64_sonoma.tar.gz"⟩]⟩
          "arm64_sonoma") ∧
    ∃ r2 ∈ latest_patch_version
        (platformRubies
          ⟨"latest",
            [⟨"ruby-3.4.0.arm64_sonoma.tar.gz",
              "https://example.com/ruby-3.4.0.arm64_sonoma.tar.gz"⟩]⟩
          "arm64_sonoma"),
      r2.display_name =
        ({ key := "ruby-3.4.0-macos-aarch64"
           version := ⟨.ruby, some 3, some 4, some 0, none, none⟩
           path := "https://example.com/ruby-3.4.0.arm64_sonoma.tar.gz"
           symlink := none
           arch := "aarch64"
           os := "macos"
           gem_root := none } : Ruby).display_name ∧
      ({ details := r2
         installed := !(("http".data).isPrefixOf r2.path.data)
         active := decide ((none : Option Ruby) = some r2) } : JsonRubyEntry) ∈
        rubies_to_show
          ⟨"latest",
            [⟨"ruby-3.4.0.arm64_sonoma.tar.gz",
              "https://example.com/ruby-3.4.0.arm64_sonoma.tar.gz"⟩]⟩
          [{ key := "ruby-3.4.1-macos-aarch64"
             version := ⟨.ruby, some 3, some 4, some 1, none, none⟩
             path := "/opt/rubies/ruby-3.4.1"
             symlink := none
             arch := "aarch64"
             os := "macos"
             gem_root := none }]
          none "arm64_sonoma" :=
  ⟨by decide,
    rubies_to_show_unmatched_remote_shown
      ⟨"latest",
        [⟨"ruby-3.4.0.arm64_sonoma.tar.gz",
          "https://example.com/ruby-3.4.0.arm64_sonoma.tar.gz"⟩]⟩
      [{ key := "ruby-3.4.1-macos-aarch64"
         version := ⟨.ruby, some 3, some 4, some 1, none, none⟩
         path := "/opt/rubies/ruby-3.4.1"
         symlink := none
         arch := "aarch64"
         os := "macos"
         gem_root := none }]
      none "arm64_sonoma"
      { key := "ruby-3.4.0-macos-aarch64"
        version := ⟨.ruby, some 3, some 4, some 0, none, none⟩
        path := "https://example.com/ruby-3.4.0.arm64_sonoma.tar.gz"
        symlink := none
        arch := "aarch64"
        os := "macos"
        gem_root := none }
      (by decide) (by decide)⟩

/-- C2 counterexample: an entry originating from the local installation
discovery list whose path happens to start with "http" is flagged
`installed = false` by the merge — the flag is computed from the path
contents, not from the entry's origin. -/
theorem installed_flag_counterexample :
    rubies_to_show ⟨"Empty", []⟩
        [{ key := "ruby-3.3.0-macos-aarch64"
           version := ⟨.ruby, some 3, some 3, some 0, none, none⟩
           path := "httpdir/ruby-3.3.0"
           symlink := none
           arch := "aarch64"
           os := "macos"
           gem_root := none }]
        none "arm64_sonoma" =
      [{ details :=
            { key := "ruby-3.3.0-macos-aarch64"
              version := ⟨.ruby, some 3, some 3, some 0, none, none⟩
              path := "httpdir/ruby-3.3.0"
              symlink := none
              arch := "aarch64"
              os := "macos"
              gem_root := none },
         installed := false,
         active := false }] := by decide

/-- C2 (amended): for every entry of the merged list, `installed` is true
iff the entry's path does not start with `http` — the textual heuristic the
code uses in place of tracking the entry's origin. -/
theorem installed_flag_is_path_test (release : Release) (installed_rubies : List Ruby)
    (active_ruby : Option Ruby) (current_platform : String) (e : JsonRubyEntry)
    (he : e ∈ rubies_to_show release installed_rubies active_ruby current_platform) :
    e.installed = !(("http".data).isPrefixOf e.details.path.data) := by
  rw [rubies_to_show_eq] at he
  obtain ⟨r, -, hr⟩ := List.mem_map.mp he
  rw [← hr]

theorem installed_flag_is_path_test_witness :
    ({ details :=
          { key := "ruby-3.3.0-macos-aarch64"
            version := ⟨.ruby, some 3, some 3, some 0, none, none⟩
            path := "httpdir/ruby-3.3.0"
            symlink := none
            arch := "aarch64"
            os := "macos"
            gem_root := none },
       installed := false,
       active := false } : JsonRubyEntry) ∈
      rubies_to_show ⟨"Empty", []⟩
        [{ key := "ruby-3.3.0-macos-aarch64"
           version := ⟨.ruby, some 3, some 3, some 0, none, none⟩
           path := "httpdir/ruby-3.3.0"
           symlink := none
           arch := "aarch64"
           os := "macos"
           gem_root := none }]
        none "arm64_sonoma" ∧
    ({ details :=
          { key := "ruby-3.3.0-macos-aarch64"
            version := ⟨.ruby, some 3, some 3, some 0, none, none⟩
            path := "httpdir/ruby-3.3.0"
            symlink := none
            arch := "aarch64"
            os := "macos"
            gem_root := none },
       installed := false,
       active := false } : JsonRubyEntry).installed =
      !(("http".data).isPrefixOf
        ({ key := "ruby-3.3.0-macos-aarch64"
           version := ⟨.ruby, some 3, some 3, some 0, none, none⟩
           path := "httpdir/ruby-3.3.0"
           symlink := none
           arch := "aarch64"
           os := "macos"
           gem_root := none } : Ruby).path.data) :=
  ⟨by decide,
    installed_flag_is_path_test ⟨"Empty", []⟩
      [{ key := "ruby-3.3.0-macos-aarch64"
         version := ⟨.ruby, some 3, some 3, some 0, none, none⟩
         path := "httpdir/ruby-3.3.0"
         symlink := none
         arch := "aarch64"
         os := "macos"
         gem_root := none }]
      none "arm64_sonoma" _ (by decide)⟩

/-! ## Claim about catalog deduplication (`latest_patch_version`) -/

/-- The dedup fold step of `latest_patch_version`. -/
def lpvStep (m : List (NonPatchRelease × Ruby)) (ruby : Ruby) :
    List (NonPatchRelease × Ruby) :=
  let key := NonPatchRelease.ofRequest ruby.version
  let skip : Bool :=
    match btreeFind key m with
    | some other => cmpVersion ruby.version other.version == .lt
    | none => false
  if skip then m else btreeInsert cmpNPR key ruby m

theorem latest_patch_version_eq (rs : List Ruby) :
    latest_patch_version rs = (rs.foldl lpvStep []).map Prod.snd := rfl

/-- Invariant carried through the dedup fold. -/
def LpvInv (seen : List Ruby) (m : List (NonPatchRelease × Ruby)) : Prop :=
  MapWF cmpNPR m ∧
  (∀ x ∈ m, NonPatchRelease.ofRequest x.2.version = x.1 ∧ x.2 ∈ seen) ∧
  (∀ r ∈ seen, ∃ vs, btreeFind (NonPatchRelease.ofRequest r.version) m = some vs) ∧
  (∀ r ∈ seen, ∀ vs, btreeFind (NonPatchRelease.ofRequest r.version) m = some vs →
    cmpVersion vs.version r.version ≠ Ordering.lt)

theorem lpvStep_inv (seen : List Ruby) (m : List (NonPatchRelease × Ruby)) (ruby : Ruby)
    (hinv : LpvInv seen m) : LpvInv (seen ++ [ruby]) (lpvStep m ruby) := by
  obtain ⟨hwf, hkeys, hcov, hmax⟩ := hinv
  unfold lpvStep
  by_cases hskip :
      (match btreeFind (NonPatchRelease.ofRequest ruby.version) m with
        | some other => cmpVersion ruby.version other.version == Ordering.lt
        | none => false) = true
  · rw [if_pos hskip]
    cases hf : btreeFind (NonPatchRelease.ofRequest ruby.version) m with
    | none => rw [hf] at hskip; cases hskip
    | some other =>
      simp only [hf] at hskip
      have hlt : cmpVersion ruby.version other.version = Ordering.lt := by
        cases hcv : cmpVersion ruby.version other.version with
        | lt => rfl
        | eq => rw [hcv] at hskip; exact absurd hskip (by decide)
        | gt => rw [hcv] at hskip; exact absurd hskip (by decide)
      refine ⟨hwf, ?hk, ?hc, ?hm⟩
      · intro x hx
        obtain ⟨h1, h2⟩ := hkeys x hx
        exact ⟨h1, List.mem_append.mpr (Or.inl h2)⟩
      · intro r hr
        rcases List.mem_append.mp hr with hr | hr
        · exact hcov r hr
        · simp at hr
          subst hr
          exact ⟨other, hf⟩
      · intro r hr vs hvs
        rcases List.mem_append.mp hr with hr | hr
        · exact hmax r hr vs hvs
        · simp at hr
          subst hr
          rw [hf] at hvs
          injection hvs with hvs
          subst hvs
          exact cmpVersion_lawful.lt_asymm hlt
  · rw [if_neg hskip]
    have hge : ∀ other, btreeFind (NonPatchRelease.ofRequest ruby.version) m = some other →
        cmpVersion ruby.version other.version ≠ Ordering.lt := by
      intro other hother hcon
      apply hskip
      simp only [hother, hcon]
      rfl
    refine ⟨btreeInsert_wf cmpNPR_lawful hwf, ?hk2, ?hc2, ?hm2⟩
    · intro x hx
      rcases btreeInsert_mem hx with h | h
      · subst h
        exact ⟨rfl, List.mem_append.mpr (Or.inr (by simp))⟩
      · obtain ⟨h1, h2⟩ := hkeys x h
        exact ⟨h1, List.mem_append.mpr (Or.inl h2)⟩
    · intro r hr
      rcases List.mem_append.mp hr with hr | hr
      · by_cases hkey : NonPatchRelease.ofRequest r.version =
            NonPatchRelease.ofRequest ruby.version
        · rw [hkey, btreeFind_insert_self cmpNPR_lawful]
          exact ⟨ruby, rfl⟩
        · rw [btreeFind_insert_ne cmpNPR_lawful _ _ _ _ hkey]
          exact hcov r hr
      · simp at hr
        subst hr
        rw [btreeFind_insert_self cmpNPR_lawful]
        exact ⟨r, rfl⟩
    · intro r hr vs hvs
      rcases List.mem_append.mp hr with hr | hr
      · by_cases hkey : NonPatchRelease.ofRequest r.version =
            NonPatchRelease.ofRequest ruby.version
        · rw [hkey, btreeFind_insert_self cmpNPR_lawful] at hvs
          injection hvs with hvs
          subst hvs
          obtain ⟨other, hother⟩ := by
            have := hcov r hr
            rwa [hkey] at this
          have h1 : cmpVersion ruby.version other.version ≠ Ordering.lt := hge other hother
          have h2 : cmpVersion other.version r.version ≠ Ordering.lt := by
            have := hmax r hr other
            rw [hkey] at this
            exact this hother
          exact cmpVersion_lawful.ge_trans h1 h2
        · rw [btreeFind_insert_ne cmpNPR_lawful _ _ _ _ hkey] at hvs
          exact hmax r hr vs hvs
      · simp at hr
        subst hr
        rw [btreeFind_insert_self cmpNPR_lawful] at hvs
        injection hvs with hvs
        subst hvs
        exact cmpVersion_lawful.lt_irrefl _

theorem lpv_fold_inv (rs : List Ruby) :
    ∀ (seen : List Ruby) (m : List (NonPatchRelease × Ruby)), LpvInv seen m →
      LpvInv (seen ++ rs) (rs.foldl lpvStep m) := by
  induction rs with
  | nil => intro seen m h; simpa using h
  | cons r rs ih =>
    intro seen m h
    have hstep := lpvStep_inv seen m r h
    have := ih (seen ++ [r]) (lpvStep m r) hstep
    simpa using this

/-- C3: catalog deduplication keeps exactly one entry per distinct
`(engine, major, minor)` group key present in the input — groups with
different engines never merge — every kept entry comes from the input, and
the kept entry's full version is greater than or equal (prerelease-aware)
to every input entry sharing its group key. -/
theorem latest_patch_version_spec (rs : List Ruby) :
    (∀ o ∈ latest_patch_version rs, o ∈ rs) ∧
    (latest_patch_version rs).Pairwise
      (fun o1 o2 =>
        NonPatchRelease.ofRequest o1.version ≠ NonPatchRelease.ofRequest o2.version) ∧
    (∀ r ∈ rs, ∃ o ∈ latest_patch_version rs,
      NonPatchRelease.ofRequest o.version = NonPatchRelease.ofRequest r.version) ∧
    (∀ o ∈ latest_patch_version rs, ∀ r ∈ rs,
      NonPatchRelease.ofRequest r.version = NonPatchRelease.ofRequest o.version →
      cmpVersion o.version r.version ≠ Ordering.lt) := by
  have hbase : LpvInv [] [] := by
    refine ⟨mapWF_nil, ?h1, ?h2, ?h3⟩
    · intro x hx; cases hx
    · intro r hr; cases hr
    · intro r hr; cases hr
  have hinv := lpv_fold_inv rs [] [] hbase
  rw [List.nil_append] at hinv
  obtain ⟨hwf, hkeys, hcov, hmax⟩ := hinv
  rw [latest_patch_version_eq]
  refine ⟨?ha, ?hb, ?hc, ?hd⟩
  · intro o ho
    obtain ⟨x, hx, hxo⟩ := List.mem_map.mp ho
    rw [← hxo]
    exact (hkeys x hx).2
  · rw [List.pairwise_map]
    have hp : (rs.foldl lpvStep []).Pairwise
        (fun x y =>
          NonPatchRelease.ofRequest x.2.version ≠ NonPatchRelease.ofRequest y.2.version) := by
      apply List.Pairwise.imp_of_mem ?himp hwf
      intro x y hx hy hlt
      rw [(hkeys x hx).1, (hkeys y hy).1]
      exact cmpNPR_lawful.lt_ne hlt
    exact hp
  · intro r hr
    obtain ⟨vs, hvs⟩ := hcov r hr
    have hpair := btreeFind_some_mem hvs
    refine ⟨vs, List.mem_map.mpr ⟨_, hpair, rfl⟩, ?hkeq⟩
    exact (hkeys _ hpair).1
  · intro o ho r hr hkey
    obtain ⟨x, hx, hxo⟩ := List.mem_map.mp ho
    have hko := (hkeys x hx).1
    have hfind : btreeFind x.1 (rs.foldl lpvStep []) = some x.2 :=
      btreeFind_of_mem_wf cmpNPR_lawful hwf hx
    have hfind2 : btreeFind (NonPatchRelease.ofRequest r.version) (rs.foldl lpvStep []) =
        some x.2 := by
      rw [hkey, ← hxo, hko]
      exact hfind
    rw [← hxo]
    exact hmax r hr x.2 hfind2

theorem latest_patch_version_spec_witness :
    (∀ o ∈ latest_patch_version
        [{ key := "a"
           version := ⟨.ruby, some 3, some 4, some 0, none, none⟩
           path := "u0"
           symlink := none
           arch := "aarch64"
           os := "macos"
           gem_root := none },
         { key := "b"
           version := ⟨.ruby, some 3, some 4, some 1, none, none⟩
           path := "u1"
           symlink := none
           arch := "aarch64"
           os := "macos"
           gem_root := none }],
      o ∈
        [{ key := "a"
           version := ⟨.ruby, some 3, some 4, some 0, none, none⟩
           path := "u0"
           symlink := none
           arch := "aarch64"
           os := "macos"
           gem_root := none },
         { key := "b"
           version := ⟨.ruby, some 3, some 4, some 1, none, none⟩
           path := "u1"
           symlink := none
           arch := "aarch64"
           os := "macos"
           gem_root := none }]) ∧
    (latest_patch_version
        [{ key := "a"
           version := ⟨.ruby, some 3, some 4, some 0, none, none⟩
           path := "u0"
           symlink := none
           arch := "aarch64"
           os := "macos"
           gem_root := none },
         { key := "b"
           version := ⟨.ruby, some 3, some 4, some 1, none, none⟩
           path := "u1"
           symlink := none
           arch := "aarch64"
           os := "macos"
           gem_root := none }]).Pairwise
      (fun o1 o2 =>
        NonPatchRelease.ofRequest o1.version ≠ NonPatchRelease.ofRequest o2.version) :=
  ⟨(latest_patch_version_spec _).1,
    (latest_patch_version_spec _).2.1⟩

/-! ## Claim about the installation scan (`discover_rubies`) -/

theorem ruby_path_cache_key_some (fs : RubyFS) (p : String) (t : Nat)
    (hm : fs.mtime p = some t) : ruby_path_cache_key fs p = some (p, t) := by
  unfold ruby_path_cache_key
  rw [hm]
  rfl

theorem get_cached_ruby_key_none (fs : RubyFS) (st : RubyCacheState) (p : String)
    (hm : fs.mtime p = none) : get_cached_ruby fs st p = (.miss, st) := by
  unfold get_cached_ruby ruby_path_cache_key
  rw [hm]
  rfl

theorem get_cached_ruby_absent (fs : RubyFS) (st : RubyCacheState) (p : String) (t : Nat)
    (hm : fs.mtime p = some t) (hs : st (p, t) = none) :
    get_cached_ruby fs st p = (.miss, st) := by
  unfold get_cached_ruby
  simp only [ruby_path_cache_key_some fs p t hm, hs]

theorem get_cached_ruby_bad (fs : RubyFS) (st : RubyCacheState) (p : String) (t : Nat)
    (hm : fs.mtime p = some t) (hs : st (p, t) = some none) :
    get_cached_ruby fs st p = (.miss, cacheErase st (p, t)) := by
  unfold get_cached_ruby
  simp only [ruby_path_cache_key_some fs p t hm, hs]

theorem get_cached_ruby_invalid (fs : RubyFS) (st : RubyCacheState) (p : String) (t : Nat)
    (r : Ruby) (hm : fs.mtime p = some t) (hs : st (p, t) = some (some r))
    (hv : fs.valid r = false) :
    get_cached_ruby fs st p = (.miss, cacheErase st (p, t)) := by
  unfold get_cached_ruby
  simp only [ruby_path_cache_key_some fs p t hm, hs, hv]
  simp

theorem get_cached_ruby_ok (fs : RubyFS) (st : RubyCacheState) (p : String) (t : Nat)
    (r : Ruby) (hm : fs.mtime p = some t) (hs : st (p, t) = some (some r))
    (hv : fs.valid r = true) : get_cached_ruby fs st p = (.hit r, st) := by
  unfold get_cached_ruby
  simp only [ruby_path_cache_key_some fs p t hm, hs, hv]
  simp

theorem cache_ruby_key (fs : RubyFS) (st : RubyCacheState) (r : Ruby) (t : Nat)
    (hm : fs.mtime r.path = some t) : cache_ruby fs st r = cacheWrite st (r.path, t) r := by
  unfold cache_ruby
  rw [ruby_path_cache_key_some fs r.path t hm]

theorem cache_ruby_nokey (fs : RubyFS) (st : RubyCacheState) (r : Ruby)
    (hm : fs.mtime r.path = none) : cache_ruby fs st r = st := by
  unfold cache_ruby ruby_path_cache_key
  rw [hm]
  rfl

theorem probe_candidate_nores (fs : RubyFS) (st : RubyCacheState) (p : String)
    (hp : fs.probe p = none) : probe_candidate fs st p = ⟨none, false, true, st⟩ := by
  unfold probe_candidate
  simp only [hp]

theorem probe_candidate_invalid (fs : RubyFS) (st : RubyCacheState) (p : String) (r : Ruby)
    (hp : fs.probe p = some r) (hv : fs.valid r = false) :
    probe_candidate fs st p = ⟨none, false, true, st⟩ := by
  unfold probe_candidate
  simp only [hp, hv]
  simp

theorem probe_candidate_valid (fs : RubyFS) (st : RubyCacheState) (p : String) (r : Ruby)
    (hp : fs.probe p = some r) (hv : fs.valid r = true) :
    probe_candidate fs st p = ⟨some r, false, true, cache_ruby fs st r⟩ := by
  unfold probe_candidate
  simp only [hp, hv]
  simp

theorem scan_candidate_of_hit (fs : RubyFS) (st : RubyCacheState) (p : String) (r : Ruby)
    (st2 : RubyCacheState) (hg : get_cached_ruby fs st p = (.hit r, st2)) :
    scan_candidate fs st p = ⟨some r, true, false, st2⟩ := by
  unfold scan_candidate
  rw [hg]

theorem scan_candidate_of_miss (fs : RubyFS) (st : RubyCacheState) (p : String)
    (st2 : RubyCacheState) (hg : get_cached_ruby fs st p = (.miss, st2)) :
    scan_candidate fs st p = probe_candidate fs st2 p := by
  unfold scan_candidate
  rw [hg]

/-- Pointwise behaviour of `cacheErase`. -/
theorem cacheErase_at (st : RubyCacheState) (k k2 : CacheKey) :
    cacheErase st k k2 = if k2 = k then none else st k2 := rfl

/-- Pointwise behaviour of `cacheWrite`. -/
theorem cacheWrite_at (st : RubyCacheState) (k : CacheKey) (r : Ruby) (k2 : CacheKey) :
    cacheWrite st k r k2 = if k2 = k then some (some r) else st k2 := rfl

/-- `get_cached_ruby` touches no cache key of another path. -/
theorem get_cached_ruby_local (fs : RubyFS) (st : RubyCacheState) (p q : String) (t : Nat)
    (hq : q ≠ p) : (get_cached_ruby fs st p).2 (q, t) = st (q, t) := by
  have hne : ∀ t0 : Nat, ((q, t) : CacheKey) ≠ (p, t0) := by
    intro t0 hcon
    exact hq (congrArg Prod.fst hcon)
  cases hm : fs.mtime p with
  | none => rw [get_cached_ruby_key_none fs st p hm]
  | some t0 =>
    cases hs : st (p, t0) with
    | none => rw [get_cached_ruby_absent fs st p t0 hm hs]
    | some o =>
      cases o with
      | none =>
        rw [get_cached_ruby_bad fs st p t0 hm hs]
        show cacheErase st (p, t0) (q, t) = st (q, t)
        rw [cacheErase_at, if_neg (hne t0)]
      | some r =>
        by_cases hv : fs.valid r
        · rw [get_cached_ruby_ok fs st p t0 r hm hs hv]
        · rw [get_cached_ruby_invalid fs st p t0 r hm hs (by simpa using hv)]
          show cacheErase st (p, t0) (q, t) = st (q, t)
          rw [cacheErase_at, if_neg (hne t0)]

/-- `get_cached_ruby` reads only its own path's keys. -/
theorem get_cached_ruby_congr (fs : RubyFS) (p : String) (st1 st2 : RubyCacheState)
    (hag : ∀ t, st1 (p, t) = st2 (p, t)) :
    (get_cached_ruby fs st1 p).1 = (get_cached_ruby fs st2 p).1 ∧
    ∀ t, (get_cached_ruby fs st1 p).2 (p, t) = (get_cached_ruby fs st2 p).2 (p, t) := by
  cases hm : fs.mtime p with
  | none =>
    rw [get_cached_ruby_key_none fs st1 p hm, get_cached_ruby_key_none fs st2 p hm]
    exact ⟨rfl, hag⟩
  | some t0 =>
    have h12 : st1 (p, t0) = st2 (p, t0) := hag t0
    cases hs : st2 (p, t0) with
    | none =>
      rw [get_cached_ruby_absent fs st1 p t0 hm (h12.trans hs),
        get_cached_ruby_absent fs st2 p t0 hm hs]
      exact ⟨rfl, hag⟩
    | some o =>
      cases o with
      | none =>
        rw [get_cached_ruby_bad fs st1 p t0 hm (h12.trans hs),
          get_cached_ruby_bad fs st2 p t0 hm hs]
        refine ⟨rfl, ?hpt⟩
        intro t
        show cacheErase st1 (p, t0) (p, t) = cacheErase st2 (p, t0) (p, t)
        rw [cacheErase_at, cacheErase_at]
        by_cases he : ((p, t) : CacheKey) = (p, t0)
        · rw [if_pos he, if_pos he]
        · rw [if_neg he, if_neg he]
          exact hag t
      | some r =>
        by_cases hv : fs.valid r
        · rw [get_cached_ruby_ok fs st1 p t0 r hm (h12.trans hs) hv,
            get_cached_ruby_ok fs st2 p t0 r hm hs hv]
          exact ⟨rfl, hag⟩
        · have hvf : fs.valid r = false := by simpa using hv
          rw [get_cached_ruby_invalid fs st1 p t0 r hm (h12.trans hs) hvf,
            get_cached_ruby_invalid fs st2 p t0 r hm hs hvf]
          refine ⟨rfl, ?hpt2⟩
          intro t
          show cacheErase st1 (p, t0) (p, t) = cacheErase st2 (p, t0) (p, t)
          rw [cacheErase_at, cacheErase_at]
          by_cases he : ((p, t) : CacheKey) = (p, t0)
          · rw [if_pos he, if_pos he]
          · rw [if_neg he, if_neg he]
            exact hag t

/-- `probe_candidate` touches no cache key of another path. -/
theorem probe_candidate_local (fs : RubyFS) (st : RubyCacheState) (p q : String) (t : Nat)
    (hq : q ≠ p) (hpp : ∀ q2 r, fs.probe q2 = some r → r.path = q2) :
    (probe_candidate fs st p).st (q, t) = st (q, t) := by
  cases hp : fs.probe p with
  | none => rw [probe_candidate_nores fs st p hp]
  | some r =>
    have hrp : r.path = p := hpp p r hp
    by_cases hv : fs.valid r
    · rw [probe_candidate_valid fs st p r hp hv]
      show cache_ruby fs st r (q, t) = st (q, t)
      cases hm : fs.mtime r.path with
      | none => rw [cache_ruby_nokey fs st r hm]
      | some t0 =>
        rw [cache_ruby_key fs st r t0 hm]
        rw [cacheWrite_at, if_neg]
        intro hcon
        apply hq
        have h2 : q = r.path := congrArg Prod.fst hcon
        rw [h2, hrp]
    · rw [probe_candidate_invalid fs st p r hp (by simpa using hv)]

/-- The contribution of `probe_candidate` does not depend on the cache
state at all. -/
theorem probe_candidate_kept_const (fs : RubyFS) (st1 st2 : RubyCacheState) (p : String) :
    (probe_candidate fs st1 p).kept = (probe_candidate fs st2 p).kept ∧
    (probe_candidate fs st1 p).fromCache = (probe_candidate fs st2 p).fromCache := by
  cases hp : fs.probe p with
  | none =>
    rw [probe_candidate_nores fs st1 p hp, probe_candidate_nores fs st2 p hp]
    exact ⟨rfl, rfl⟩
  | some r =>
    by_cases hv : fs.valid r
    · rw [probe_candidate_valid fs st1 p r hp hv, probe_candidate_valid fs st2 p r hp hv]
      exact ⟨rfl, rfl⟩
    · rw [probe_candidate_invalid fs st1 p r hp (by simpa using hv),
        probe_candidate_invalid fs st2 p r hp (by simpa using hv)]
      exact ⟨rfl, rfl⟩

/-- `probe_candidate` post-states agree on a path on which the pre-states
agree. -/
theorem probe_candidate_congr_at (fs : RubyFS) (p : String) (st1 st2 : RubyCacheState)
    (hag : ∀ t, st1 (p, t) = st2 (p, t)) :
    ∀ t, (probe_candidate fs st1 p).st (p, t) = (probe_candidate fs st2 p).st (p, t) := by
  intro t
  cases hp : fs.probe p with
  | none =>
    rw [probe_candidate_nores fs st1 p hp, probe_candidate_nores fs st2 p hp]
    exact hag t
  | some r =>
    by_cases hv : fs.valid r
    · rw [probe_candidate_valid fs st1 p r hp hv, probe_candidate_valid fs st2 p r hp hv]
      show cache_ruby fs st1 r (p, t) = cache_ruby fs st2 r (p, t)
      cases hm : fs.mtime r.path with
      | none =>
        rw [cache_ruby_nokey fs st1 r hm, cache_ruby_nokey fs st2 r hm]
        exact hag t
      | some t0 =>
        rw [cache_ruby_key fs st1 r t0 hm, cache_ruby_key fs st2 r t0 hm]
        rw [cacheWrite_at, cacheWrite_at]
        by_cases he : ((p, t) : CacheKey) = (r.path, t0)
        · rw [if_pos he, if_pos he]
        · rw [if_neg he, if_neg he]
          exact hag t
    · rw [probe_candidate_invalid fs st1 p r hp (by simpa using hv),
        probe_candidate_invalid fs st2 p r hp (by simpa using hv)]
      exact hag t

/-- `scan_candidate` touches no cache key of another path. -/
theorem scan_candidate_local (fs : RubyFS) (st : RubyCacheState) (p q : String) (t : Nat)
    (hq : q ≠ p) (hpp : ∀ q2 r, fs.probe q2 = some r → r.path = q2) :
    (scan_candidate fs st p).st (q, t) = st (q, t) := by
  cases hg : get_cached_ruby fs st p with
  | mk res st2 =>
    have hst2 : st2 (q, t) = st (q, t) := by
      have h2 := get_cached_ruby_local fs st p q t hq
      rw [hg] at h2
      exact h2
    cases res with
    | hit r => rw [scan_candidate_of_hit fs st p r st2 hg]; exact hst2
    | miss =>
      rw [scan_candidate_of_miss fs st p st2 hg]
      rw [probe_candidate_local fs st2 p q t hq hpp]
      exact hst2

/-- The `scan_candidate` contribution depends only on the cache state at
the candidate's own path. -/
theorem scan_candidate_congr (fs : RubyFS) (p : String) (st1 st2 : RubyCacheState)
    (hag : ∀ t, st1 (p, t) = st2 (p, t)) :
    (scan_candidate fs st1 p).kept = (scan_candidate fs st2 p).kept ∧
    (scan_candidate fs st1 p).fromCache = (scan_candidate fs st2 p).fromCache ∧
    ∀ t, (scan_candidate fs st1 p).st (p, t) = (scan_candidate fs st2 p).st (p, t) := by
  obtain ⟨hres, hsts⟩ := get_cached_ruby_congr fs p st1 st2 hag
  cases hg1 : get_cached_ruby fs st1 p with
  | mk res1 sta =>
    cases hg2 : get_cached_ruby fs st2 p with
    | mk res2 stb =>
      have hres2 : res1 = res2 := by
        rw [hg1, hg2] at hres
        exact hres
      subst hres2
      have hsts2 : ∀ t, sta (p, t) = stb (p, t) := by
        intro t
        have h2 := hsts t
        rw [hg1, hg2] at h2
        exact h2
      cases res1 with
      | hit r =>
        rw [scan_candidate_of_hit fs st1 p r sta hg1, scan_candidate_of_hit fs st2 p r stb hg2]
        exact ⟨rfl, rfl, hsts2⟩
      | miss =>
        rw [scan_candidate_of_miss fs st1 p sta hg1, scan_candidate_of_miss fs st2 p stb hg2]
        exact ⟨(probe_candidate_kept_const fs sta stb p).1,
          (probe_candidate_kept_const fs sta stb p).2,
          probe_candidate_congr_at fs p sta stb hsts2⟩

/-- One step of `scan_all` unfolded. -/
theorem scan_all_cons (fs : RubyFS) (st : RubyCacheState) (p : String) (ps : List String) :
    scan_all fs st (p :: ps) =
      ⟨(match (scan_candidate fs st p).kept with
          | some r => (r, (scan_candidate fs st p).fromCache) ::
              (scan_all fs (scan_candidate fs st p).st ps).found
          | none => (scan_all fs (scan_candidate fs st p).st ps).found),
        (scan_all fs (scan_candidate fs st p).st ps).st⟩ := rfl

/-- `scan_all` touches no cache key of a path outside the candidate list. -/
theorem scan_all_local (fs : RubyFS)
    (hpp : ∀ q2 r, fs.probe q2 = some r → r.path = q2) :
    ∀ (cands : List String) (st : RubyCacheState) (q : String) (t : Nat), q ∉ cands →
      (scan_all fs st cands).st (q, t) = st (q, t) := by
  intro cands
  induction cands with
  | nil => intro st q t _; rfl
  | cons p ps ih =>
    intro st q t hq
    rw [scan_all_cons]
    have hqp : q ≠ p := fun h => hq (h ▸ List.mem_cons_self p ps)
    have hqs : q ∉ ps := fun h => hq (List.mem_cons_of_mem p h)
    show (scan_all fs (scan_candidate fs st p).st ps).st (q, t) = st (q, t)
    rw [ih _ q t hqs]
    exact scan_candidate_local fs st p q t hqp hpp

/-- The outcome one candidate contributes, read against a fixed state. -/
def pure_step (fs : RubyFS) (st : RubyCacheState) (p : String) : Option (Ruby × Bool) :=
  ((scan_candidate fs st p).kept).map (fun r => (r, (scan_candidate fs st p).fromCache))

/-- With pairwise-distinct candidates, the collected results are the
per-candidate outcomes against the initial state: candidates do not
interfere. -/
theorem scan_all_found_eq (fs : RubyFS)
    (hpp : ∀ q2 r, fs.probe q2 = some r → r.path = q2) :
    ∀ (cands : List String) (st2 st : RubyCacheState), cands.Nodup →
      (∀ q ∈ cands, ∀ t, st2 (q, t) = st (q, t)) →
      (scan_all fs st2 cands).found = cands.filterMap (pure_step fs st) := by
  intro cands
  induction cands with
  | nil => intro st2 st _ _; rfl
  | cons p ps ih =>
    intro st2 st hnd hag
    rw [scan_all_cons]
    obtain ⟨hp, hps⟩ := List.nodup_cons.mp hnd
    have hagp : ∀ t, st2 (p, t) = st (p, t) := fun t => hag p (List.mem_cons_self p ps) t
    obtain ⟨hkept, hfc, -⟩ := scan_candidate_congr fs p st2 st hagp
    have hagtail : ∀ q ∈ ps, ∀ t, (scan_candidate fs st2 p).st (q, t) = st (q, t) := by
      intro q hq t
      have hqp : q ≠ p := fun h => hp (h ▸ hq)
      rw [scan_candidate_local fs st2 p q t hqp hpp]
      exact hag q (List.mem_cons_of_mem p hq) t
    have hrest := ih (scan_candidate fs st2 p).st st hps hagtail
    show (match (scan_candidate fs st2 p).kept with
        | some r => (r, (scan_candidate fs st2 p).fromCache) ::
            (scan_all fs (scan_candidate fs st2 p).st ps).found
        | none => (scan_all fs (scan_candidate fs st2 p).st ps).found) =
      (p :: ps).filterMap (pure_step fs st)
    rw [List.filterMap_cons, hrest]
    unfold pure_step
    rw [← hkept, ← hfc]
    cases hk : (scan_candidate fs st2 p).kept with
    | some r => rfl
    | none => rfl

/-- After the scan, the cache at a candidate's own keys is whatever that
candidate's step left there. -/
theorem scan_all_final_at (fs : RubyFS)
    (hpp : ∀ q2 r, fs.probe q2 = some r → r.path = q2) :
    ∀ (cands : List String) (st : RubyCacheState) (p : String), cands.Nodup →
      p ∈ cands → ∀ t,
      (scan_all fs st cands).st (p, t) = (scan_candidate fs st p).st (p, t) := by
  intro cands
  induction cands with
  | nil => intro st p _ hp; cases hp
  | cons q ps ih =>
    intro st p hnd hp t
    rw [scan_all_cons]
    obtain ⟨hq, hps⟩ := List.nodup_cons.mp hnd
    show (scan_all fs (scan_candidate fs st q).st ps).st (p, t) =
      (scan_candidate fs st p).st (p, t)
    rcases List.mem_cons.mp hp with rfl | hp2
    · rw [scan_all_local fs hpp ps _ p t hq]
    · have hpq : p ≠ q := fun h => hq (h ▸ hp2)
      rw [ih (scan_candidate fs st q).st p hps hp2 t]
      have hag : ∀ t2, (scan_candidate fs st q).st (p, t2) = st (p, t2) :=
        fun t2 => scan_candidate_local fs st q p t2 hpq hpp
      exact (scan_candidate_congr fs p _ st hag).2.2 t

/-- Re-running one candidate against its own post-state reproduces its
contribution, and any contribution is now served from the cache. -/
theorem scan_candidate_idem (fs : RubyFS) (st : RubyCacheState) (p : String)
    (hpp : ∀ q2 r, fs.probe q2 = some r → r.path = q2)
    (hvm : ∀ r, fs.valid r = true → (fs.mtime r.path).isSome = true) :
    (scan_candidate fs (scan_candidate fs st p).st p).kept = (scan_candidate fs st p).kept ∧
    ∀ r, (scan_candidate fs st p).kept = some r →
      (scan_candidate fs (scan_candidate fs st p).st p).fromCache = true := by
  cases hm : fs.mtime p with
  | none =>
    have hg := get_cached_ruby_key_none fs st p hm
    rw [scan_candidate_of_miss fs st p st hg]
    cases hprobe : fs.probe p with
    | none =>
      rw [probe_candidate_nores fs st p hprobe]
      rw [scan_candidate_of_miss fs st p st hg, probe_candidate_nores fs st p hprobe]
      exact ⟨rfl, by intro r h; cases h⟩
    | some r =>
      by_cases hv : fs.valid r
      · exfalso
        have h2 := hvm r hv
        rw [hpp p r hprobe, hm] at h2
        cases h2
      · rw [probe_candidate_invalid fs st p r hprobe (by simpa using hv)]
        rw [scan_candidate_of_miss fs st p st hg,
          probe_candidate_invalid fs st p r hprobe (by simpa using hv)]
        exact ⟨rfl, by intro r2 h; cases h⟩
  | some t0 =>
    have hmiss_cont :
        ∀ st2 : RubyCacheState, st2 (p, t0) = none →
          (scan_candidate fs (probe_candidate fs st2 p).st p).kept =
              (probe_candidate fs st2 p).kept ∧
            ∀ r, (probe_candidate fs st2 p).kept = some r →
              (scan_candidate fs (probe_candidate fs st2 p).st p).fromCache = true := by
      intro st2 habs
      cases hprobe : fs.probe p with
      | none =>
        rw [probe_candidate_nores fs st2 p hprobe]
        rw [scan_candidate_of_miss fs st2 p st2 (get_cached_ruby_absent fs st2 p t0 hm habs),
          probe_candidate_nores fs st2 p hprobe]
        exact ⟨rfl, by intro r h; cases h⟩
      | some r =>
        by_cases hv : fs.valid r
        · rw [probe_candidate_valid fs st2 p r hprobe hv]
          have hrp : r.path = p := hpp p r hprobe
          have hckey : cache_ruby fs st2 r = cacheWrite st2 (p, t0) r := by
            have hmr : fs.mtime r.path = some t0 := by rw [hrp]; exact hm
            rw [cache_ruby_key fs st2 r t0 hmr, hrp]
          show (scan_candidate fs (cache_ruby fs st2 r) p).kept = some r ∧ _
          rw [hckey]
          have hread : cacheWrite st2 (p, t0) r (p, t0) = some (some r) := by
            rw [cacheWrite_at, if_pos rfl]
          rw [scan_candidate_of_hit fs _ p r _
            (get_cached_ruby_ok fs (cacheWrite st2 (p, t0) r) p t0 r hm hread hv)]
          exact ⟨rfl, fun r2 _ => rfl⟩
        · rw [probe_candidate_invalid fs st2 p r hprobe (by simpa using hv)]
          rw [scan_candidate_of_miss fs st2 p st2 (get_cached_ruby_absent fs st2 p t0 hm habs),
            probe_candidate_invalid fs st2 p r hprobe (by simpa using hv)]
          exact ⟨rfl, by intro r2 h; cases h⟩
    cases hs : st (p, t0) with
    | none =>
      rw [scan_candidate_of_miss fs st p st (get_cached_ruby_absent fs st p t0 hm hs)]
      exact hmiss_cont st hs
    | some o =>
      cases o with
      | none =>
        rw [scan_candidate_of_miss fs st p (cacheErase st (p, t0))
          (get_cached_ruby_bad fs st p t0 hm hs)]
        exact hmiss_cont (cacheErase st (p, t0)) (by rw [cacheErase_at, if_pos rfl])
      | some r0 =>
        by_cases hv0 : fs.valid r0
        · rw [scan_candidate_of_hit fs st p r0 st (get_cached_ruby_ok fs st p t0 r0 hm hs hv0)]
          show (scan_candidate fs st p).kept = some r0 ∧ _
          rw [scan_candidate_of_hit fs st p r0 st (get_cached_ruby_ok fs st p t0 r0 hm hs hv0)]
          exact ⟨rfl, fun r2 _ => rfl⟩
        · rw [scan_candidate_of_miss fs st p (cacheErase st (p, t0))
            (get_cached_ruby_invalid fs st p t0 r0 hm hs (by simpa using hv0))]
          exact hmiss_cont (cacheErase st (p, t0)) (by rw [cacheErase_at, if_pos rfl])

theorem pure_step_fst (fs : RubyFS) (stX : RubyCacheState) (p : String) :
    (pure_step fs stX p).map Prod.fst = (scan_candidate fs stX p).kept := by
  unfold pure_step
  cases (scan_candidate fs stX p).kept with
  | none => rfl
  | some r => rfl

/-- C4: installation scan idempotence and determinism. Against an unchanged
filesystem, re-running `discover_rubies` from the cache state the first
run left behind returns the same sorted list, with every contributed entry
served from the cache; the returned list is sorted by the `Installation`
order; and any permutation of the candidate processing order yields the
identical list. (Hypotheses: candidate directories are pairwise distinct;
`Ruby::from_dir` reports the probed directory as the installation path; a
valid installation's executable has a readable timestamp.) -/
theorem discover_rubies_idempotent_sorted (fs : RubyFS) (st : RubyCacheState)
    (cands cands2 : List String) (hnd : cands.Nodup) (hperm : cands2.Perm cands)
    (hpp : ∀ p r, fs.probe p = some r → r.path = p)
    (hvm : ∀ r, fs.valid r = true → (fs.mtime r.path).isSome = true) :
    discover_rubies fs ((scan_all fs st cands).st) cands = discover_rubies fs st cands ∧
    (∀ x ∈ (scan_all fs (scan_all fs st cands).st cands).found, x.2 = true) ∧
    List.Sorted rubyLe (discover_rubies fs st cands) ∧
    discover_rubies fs st cands2 = discover_rubies fs st cands := by
  have hkept_eq : ∀ p ∈ cands,
      (scan_candidate fs ((scan_all fs st cands).st) p).kept =
        (scan_candidate fs st p).kept := by
    intro p hp
    have hat : ∀ t, (scan_all fs st cands).st (p, t) = (scan_candidate fs st p).st (p, t) :=
      fun t => scan_all_final_at fs hpp cands st p hnd hp t
    have hcongr := scan_candidate_congr fs p ((scan_all fs st cands).st)
      ((scan_candidate fs st p).st) hat
    rw [hcongr.1]
    exact (scan_candidate_idem fs st p hpp hvm).1
  refine ⟨?ha, ?hb, ?hc, ?hd⟩
  · unfold discover_rubies
    have hlists : (scan_all fs ((scan_all fs st cands).st) cands).found.map Prod.fst =
        (scan_all fs st cands).found.map Prod.fst := by
      rw [scan_all_found_eq fs hpp cands ((scan_all fs st cands).st)
          ((scan_all fs st cands).st) hnd (fun q _ t => rfl),
        scan_all_found_eq fs hpp cands st st hnd (fun q _ t => rfl)]
      rw [List.map_filterMap, List.map_filterMap]
      apply List.filterMap_congr
      intro p hp
      rw [pure_step_fst, pure_step_fst]
      exact hkept_eq p hp
    rw [hlists]
  · rw [scan_all_found_eq fs hpp cands ((scan_all fs st cands).st)
      ((scan_all fs st cands).st) hnd (fun q _ t => rfl)]
    intro x hx
    obtain ⟨p, hp, hpx⟩ := List.mem_filterMap.mp hx
    unfold pure_step at hpx
    cases hk : (scan_candidate fs ((scan_all fs st cands).st) p).kept with
    | none => rw [hk] at hpx; cases hpx
    | some r =>
      rw [hk] at hpx
      injection hpx with hpx
      rw [← hpx]
      show (scan_candidate fs ((scan_all fs st cands).st) p).fromCache = true
      have hat : ∀ t, (scan_all fs st cands).st (p, t) =
          (scan_candidate fs st p).st (p, t) :=
        fun t => scan_all_final_at fs hpp cands st p hnd hp t
      have hcongr := scan_candidate_congr fs p ((scan_all fs st cands).st)
        ((scan_candidate fs st p).st) hat
      rw [hcongr.2.1]
      apply (scan_candidate_idem fs st p hpp hvm).2 r
      rw [← (scan_candidate_idem fs st p hpp hvm).1, ← hcongr.1]
      exact hk
  · exact List.sorted_insertionSort rubyLe _
  · have hnd2 : cands2.Nodup := (hperm.nodup_iff).mpr hnd
    have hpermfound : List.Perm ((scan_all fs st cands2).found.map Prod.fst)
        ((scan_all fs st cands).found.map Prod.fst) := by
      rw [scan_all_found_eq fs hpp cands2 st st hnd2 (fun q _ t => rfl),
        scan_all_found_eq fs hpp cands st st hnd (fun q _ t => rfl)]
      exact (hperm.filterMap _).map _
    unfold discover_rubies
    have hpm := ((List.perm_insertionSort rubyLe _).trans hpermfound).trans
      (List.perm_insertionSort rubyLe _).symm
    exact @List.eq_of_perm_of_sorted _ rubyLe _ _ _ hpm
      (List.sorted_insertionSort rubyLe _) (List.sorted_insertionSort rubyLe _)

/-- A concrete installation used to exercise the scan. -/
def c4ruby : Ruby :=
  { key := "ruby-3.3.0-linux-x86_64"
    version := ⟨.ruby, some 3, some 3, some 0, none, none⟩
    path := "/opt/rubies/r1"
    symlink := none
    arch := "x86_64"
    os := "linux"
    gem_root := none }

/-- A concrete two-candidate filesystem: one valid installation, one
directory that fails to probe. -/
def c4fs : RubyFS where
  probe := fun p => if p = "/opt/rubies/r1" then some c4ruby else none
  mtime := fun _ => some 0
  valid := fun _ => true

theorem discover_rubies_idempotent_sorted_witness :
    (["/opt/rubies/r1", "/opt/rubies/r2"] : List String).Nodup ∧
    List.Perm ["/opt/rubies/r2", "/opt/rubies/r1"] ["/opt/rubies/r1", "/opt/rubies/r2"] ∧
    (discover_rubies c4fs
          ((scan_all c4fs (fun _ => none) ["/opt/rubies/r1", "/opt/rubies/r2"]).st)
          ["/opt/rubies/r1", "/opt/rubies/r2"] =
        discover_rubies c4fs (fun _ => none) ["/opt/rubies/r1", "/opt/rubies/r2"] ∧
      (∀ x ∈ (scan_all c4fs
            (scan_all c4fs (fun _ => none) ["/opt/rubies/r1", "/opt/rubies/r2"]).st
            ["/opt/rubies/r1", "/opt/rubies/r2"]).found, x.2 = true) ∧
      List.Sorted rubyLe
          (discover_rubies c4fs (fun _ => none) ["/opt/rubies/r1", "/opt/rubies/r2"]) ∧
      discover_rubies c4fs (fun _ => none) ["/opt/rubies/r2", "/opt/rubies/r1"] =
        discover_rubies c4fs (fun _ => none) ["/opt/rubies/r1", "/opt/rubies/r2"]) :=
  ⟨by decide, by decide,
    discover_rubies_idempotent_sorted c4fs (fun _ => none)
      ["/opt/rubies/r1", "/opt/rubies/r2"] ["/opt/rubies/r2", "/opt/rubies/r1"]
      (by decide) (by decide)
      (by
        intro p r h
        by_cases hp : p = "/opt/rubies/r1"
        · subst hp
          rw [show c4fs.probe "/opt/rubies/r1" = some c4ruby from rfl] at h
          injection h with h
          rw [← h]
          rfl
        · rw [show c4fs.probe p = if p = "/opt/rubies/r1" then some c4ruby else none from rfl,
            if_neg hp] at h
          cases h)
      (fun r _ => rfl)⟩
